import Mathlib

/-!
Verification of the allcat stream-transformation core.

The Go sources define five decorator stages over an `io.WriteCloser` sink:
a generic byte replacer (end-of-line marker, tab escaper), a non-printable
escaper, two line numberers and a blank-line squeezer, all built on a shared
field-splitting loop.  We embed each stage as a pure function parameterized
by an abstract inner sink `σ → chunk → (written, σ, failed)`, with bytes as
`Nat` (range hypotheses added where the Go byte arithmetic matters).
-/

namespace Allcat

/-- Shared field-splitting loop of `splitLines` / `splitOnNonprint` /
`splitOnByte`: `acc` holds `data[last:i]`, a span is cut after every byte
satisfying `p`, and a nonempty leftover is emitted at the end. -/
def splitAux (p : Nat → Bool) (acc : List Nat) : List Nat → List (List Nat)
  | [] => if acc.isEmpty then [] else [acc]
  | b :: rest =>
    if p b then (acc ++ [b]) :: splitAux p [] rest
    else splitAux p (acc ++ [b]) rest

def splitOnPred (p : Nat → Bool) (data : List Nat) : List (List Nat) :=
  splitAux p [] data

/-- Go `splitLines`: split after every newline byte. -/
def splitLines (data : List Nat) : List (List Nat) :=
  splitOnPred (fun b => b == 10) data

/-- Go `splitOnNonprint`: split after every byte `< 32` or `>= 127`. -/
def splitOnNonprint (data : List Nat) : List (List Nat) :=
  splitOnPred (fun b => decide (b < 32) || decide (127 ≤ b)) data

/-- Go `splitOnByte`: split after every occurrence of `sep`. -/
def splitOnByte (data : List Nat) (sep : Nat) : List (List Nat) :=
  splitOnPred (fun b => b == sep) data

/-- An inner sink: given its state and a chunk, it reports the byte count it
accepted, its new state, and whether the write failed. -/
abbrev SinkFn (σ : Type) := σ → List Nat → Nat × σ × Bool

/-- A sink that always succeeds, logging every chunk it receives. -/
def okSink : SinkFn (List (List Nat)) :=
  fun s c => (c.length, s ++ [c], false)

/-- A sink that fails (accepting nothing) on its write call number `k`
(0-based) and succeeds on every other call; the state counts calls made and
logs the successfully written chunks. -/
def failSink (k : Nat) : SinkFn (Nat × List (List Nat)) :=
  fun s c =>
    if s.1 == k then (0, (s.1 + 1, s.2), true)
    else (c.length, (s.1 + 1, s.2 ++ [c]), false)

/-- Result of one stage `Write` call: accepted count `n`, the own
state of the stage `st` after the call, the inner sink state, and the error flag. -/
structure StepOut (π : Type) (σ : Type) where
  n : Nat
  st : π
  inner : σ
  err : Bool

/-- Loop of Go `byteReplacer.Write` over the fields of `splitOnByte`. -/
def byteReplacerLoop (inner : SinkFn σ) (sep : Nat) (rep : List Nat) :
    List (List Nat) → Nat → σ → StepOut Unit σ
  | [], n, s => ⟨n, (), s, false⟩
  | field :: fields, n, s =>
    if field.length < 1 then byteReplacerLoop inner sep rep fields n s
    else if field.getLastD 0 ≠ sep then
      let r := inner s field
      if r.2.2 then ⟨n + r.1, (), r.2.1, true⟩
      else byteReplacerLoop inner sep rep fields (n + r.1) r.2.1
    else
      let r := inner s field.dropLast
      if r.2.2 then ⟨n + r.1, (), r.2.1, true⟩
      else
        let r2 := inner r.2.1 rep
        if r2.2.2 then ⟨n + r.1, (), r2.2.1, true⟩
        else byteReplacerLoop inner sep rep fields (n + r.1 + 1) r2.2.1

/-- Go `byteReplacer.Write`. -/
def byteReplacerWrite (inner : SinkFn σ) (sep : Nat) (rep : List Nat)
    (s : σ) (data : List Nat) : StepOut Unit σ :=
  byteReplacerLoop inner sep rep (splitOnByte data sep) 0 s

/-- Decimal digit characters of `n` (ASCII codes), most significant first;
`fuel` bounds the recursion depth and is always given as more than `n`. -/
def digitsAux : Nat → Nat → List Nat
  | _, 0 => []
  | n, fuel + 1 =>
    if n < 10 then [48 + n] else digitsAux (n / 10) fuel ++ [48 + n % 10]

def decimalDigits (n : Nat) : List Nat :=
  digitsAux n (n + 1)

/-- Bytes produced by the Go Fprintf call with the 6-wide decimal format
and a tab in `lineNumberer.Write`: the decimal
rendering of `lineno`, right-justified with spaces to a minimum width of 6,
followed by one tab. -/
def fmtLineno (lineno : Nat) : List Nat :=
  List.replicate (6 - (decimalDigits lineno).length) 32 ++ decimalDigits lineno ++ [9]

/-- Loop of Go `lineNumberer.Write` over the spans of `splitLines`; the
stage state is the pair `(lineno, suppress)`. -/
def lineNumbererLoop (inner : SinkFn σ) :
    List (List Nat) → Nat → Bool → σ → Nat → StepOut (Nat × Bool) σ
  | [], lineno, sup, s, n => ⟨n, (lineno, sup), s, false⟩
  | line :: rest, lineno, sup, s, n =>
    if sup then
      let r := inner s line
      if r.2.2 then ⟨n + r.1, (lineno, sup), r.2.1, true⟩
      else
        lineNumbererLoop inner rest lineno
          (line.isEmpty || (line.getLastD 0 != 10)) r.2.1 (n + r.1)
    else
      let r0 := inner s (fmtLineno (lineno + 1))
      if r0.2.2 then ⟨n, (lineno + 1, sup), r0.2.1, true⟩
      else
        let r := inner r0.2.1 line
        if r.2.2 then ⟨n + r.1, (lineno + 1, sup), r.2.1, true⟩
        else
          lineNumbererLoop inner rest (lineno + 1)
            (line.isEmpty || (line.getLastD 0 != 10)) r.2.1 (n + r.1)

/-- Go `lineNumberer.Write`. -/
def lineNumbererWrite (inner : SinkFn σ) (lineno : Nat) (sup : Bool)
    (s : σ) (data : List Nat) : StepOut (Nat × Bool) σ :=
  lineNumbererLoop inner (splitLines data) lineno sup s 0

/-- Loop of Go `nonblankLineNumberer.Write`: identical to the plain loop
except that a span which is empty or starts with a newline first forces the
suppression flag on. -/
def nonblankLoop (inner : SinkFn σ) :
    List (List Nat) → Nat → Bool → σ → Nat → StepOut (Nat × Bool) σ
  | [], lineno, sup, s, n => ⟨n, (lineno, sup), s, false⟩
  | line :: rest, lineno, sup, s, n =>
    let sup := if line.isEmpty || (line.headD 0 == 10) then true else sup
    if sup then
      let r := inner s line
      if r.2.2 then ⟨n + r.1, (lineno, sup), r.2.1, true⟩
      else
        nonblankLoop inner rest lineno
          (line.isEmpty || (line.getLastD 0 != 10)) r.2.1 (n + r.1)
    else
      let r0 := inner s (fmtLineno (lineno + 1))
      if r0.2.2 then ⟨n, (lineno + 1, sup), r0.2.1, true⟩
      else
        let r := inner r0.2.1 line
        if r.2.2 then ⟨n + r.1, (lineno + 1, sup), r.2.1, true⟩
        else
          nonblankLoop inner rest (lineno + 1)
            (line.isEmpty || (line.getLastD 0 != 10)) r.2.1 (n + r.1)

/-- Go `nonblankLineNumberer.Write`. -/
def nonblankWrite (inner : SinkFn σ) (lineno : Nat) (sup : Bool)
    (s : σ) (data : List Nat) : StepOut (Nat × Bool) σ :=
  nonblankLoop inner (splitLines data) lineno sup s 0

/-- Loop of Go `blankSqueezer.Write`; the stage state is `lastWasBlank`. -/
def blankSqueezerLoop (inner : SinkFn σ) :
    List (List Nat) → Bool → σ → Nat → StepOut Bool σ
  | [], lwb, s, n => ⟨n, lwb, s, false⟩
  | line :: rest, lwb, s, n =>
    if line.length < 1 then blankSqueezerLoop inner rest lwb s n
    else if line.getLastD 0 ≠ 10 then
      let r := inner s line
      if r.2.2 then ⟨n + r.1, lwb, r.2.1, true⟩
      else blankSqueezerLoop inner rest lwb r.2.1 (n + r.1)
    else if line.headD 0 = 10 then
      if lwb then blankSqueezerLoop inner rest lwb s (n + 1)
      else
        let r := inner s line
        if r.2.2 then ⟨n + r.1, lwb, r.2.1, true⟩
        else blankSqueezerLoop inner rest true r.2.1 (n + r.1)
    else
      let r := inner s line
      if r.2.2 then ⟨n + r.1, false, r.2.1, true⟩
      else blankSqueezerLoop inner rest false r.2.1 (n + r.1)

/-- Go `blankSqueezer.Write`. -/
def blankSqueezerWrite (inner : SinkFn σ) (lwb : Bool)
    (s : σ) (data : List Nat) : StepOut Bool σ :=
  blankSqueezerLoop inner (splitLines data) lwb s 0

/-- Loop of Go `nonprintReplacer.Write` over the fields of
`splitOnNonprint`: the terminal byte `c` of each field is classified by the
switch, the printable remainder `short` passes through verbatim. -/
def nonprintLoop (inner : SinkFn σ) :
    List (List Nat) → σ → Nat → StepOut Unit σ
  | [], s, n => ⟨n, (), s, false⟩
  | field :: fields, s, n =>
    if field.length < 1 then nonprintLoop inner fields s n
    else
      let c := field.getLastD 0
      let short := field.dropLast
      if c < 32 ∧ c ≠ 10 ∧ c ≠ 9 then
        let r := inner s short
        if r.2.2 then ⟨n + r.1, (), r.2.1, true⟩
        else
          let r2 := inner r.2.1 [94, c + 64]
          if r2.2.2 then ⟨n + r.1, (), r2.2.1, true⟩
          else nonprintLoop inner fields r2.2.1 (n + r.1 + 1)
      else if c < 127 then
        let r := inner s field
        if r.2.2 then ⟨n + r.1, (), r.2.1, true⟩
        else nonprintLoop inner fields r.2.1 (n + r.1)
      else if c = 127 then
        let r := inner s short
        if r.2.2 then ⟨n + r.1, (), r.2.1, true⟩
        else
          let r2 := inner r.2.1 [94, 63]
          if r2.2.2 then ⟨n + r.1, (), r2.2.1, true⟩
          else nonprintLoop inner fields r2.2.1 (n + r.1 + 1)
      else if c < 128 + 32 then
        let r := inner s short
        if r.2.2 then ⟨n + r.1, (), r.2.1, true⟩
        else
          let r2 := inner r.2.1 [77, 45, 94, c - 128 + 64]
          if r2.2.2 then ⟨n + r.1, (), r2.2.1, true⟩
          else nonprintLoop inner fields r2.2.1 (n + r.1 + 1)
      else if c = 255 then
        let r := inner s short
        if r.2.2 then ⟨n + r.1, (), r.2.1, true⟩
        else
          let r2 := inner r.2.1 [77, 45, 94, 63]
          if r2.2.2 then ⟨n + r.1, (), r2.2.1, true⟩
          else nonprintLoop inner fields r2.2.1 (n + r.1 + 1)
      else
        let r := inner s short
        if r.2.2 then ⟨n + r.1, (), r.2.1, true⟩
        else
          let r2 := inner r.2.1 [77, 45, c - 128]
          if r2.2.2 then ⟨n + r.1, (), r2.2.1, true⟩
          else nonprintLoop inner fields r2.2.1 (n + r.1 + 1)

/-- Go `nonprintReplacer.Write`. -/
def nonprintWrite (inner : SinkFn σ) (s : σ) (data : List Nat) :
    StepOut Unit σ :=
  nonprintLoop inner (splitOnNonprint data) s 0

/-- Modelled from the spec escaping table (section 4.3 of the design):
the bytes emitted for one input byte by the non-printable escaper.  This is
the spec-side reference against which `nonprintWrite` is compared. -/
def specEscByte (c : Nat) : List Nat :=
  if c = 10 ∨ c = 9 then [c]
  else if c < 32 then [94, c + 64]
  else if c < 127 then [c]
  else if c = 127 then [94, 63]
  else if c < 160 then [77, 45, 94, c - 128 + 64]
  else if c = 255 then [77, 45, 94, 63]
  else [77, 45, c - 128]

/-- Feed a list of chunks through consecutive `blankSqueezer` write calls
over the logging sink, returning the final flag and log. -/
def squeezeFeedAux : List (List Nat) → Bool → List (List Nat) → Bool × List (List Nat)
  | [], lwb, log => (lwb, log)
  | c :: cs, lwb, log =>
    squeezeFeedAux cs (blankSqueezerWrite okSink lwb log c).st
      (blankSqueezerWrite okSink lwb log c).inner

/-- Feed `k` write calls of the two-byte line `a\n` through the plain line
numberer, tracking only its `(lineno, suppress)` state. -/
def lineNumFeed : Nat → Nat × Bool → Nat × Bool
  | 0, st => st
  | k + 1, st => lineNumFeed k ((lineNumbererWrite okSink st.1 st.2 [] [97, 10]).st)

/-- The six stage kinds wired up by `main`. -/
inductive StageDesc where
  | eol
  | numPlain
  | numNonblank
  | squeeze
  | nonprint
  | tabs
deriving DecidableEq

/-- The command-line flags of `main` that select stages. -/
structure Flags where
  showEnds : Bool
  numberNonblank : Bool
  number : Bool
  squeezeBlank : Bool
  showNonprinting : Bool
  showTabs : Bool

/-- Chain construction in Go `main`: starting from the bare output sink,
each enabled stage wraps the current `out` and becomes the new outermost
sink, in source order end-of-line marker, numberer (nonblank overriding
plain), squeezer, non-printable escaper, tab escaper.  The head of the
resulting list is the outermost stage. -/
def buildOrder (f : Flags) : List StageDesc :=
  let c : List StageDesc := []
  let c := if f.showEnds then StageDesc.eol :: c else c
  let c :=
    if f.numberNonblank then StageDesc.numNonblank :: c
    else if f.number then StageDesc.numPlain :: c
    else c
  let c := if f.squeezeBlank then StageDesc.squeeze :: c else c
  let c := if f.showNonprinting then StageDesc.nonprint :: c else c
  if f.showTabs then StageDesc.tabs :: c else c

/-- Universal per-stage mutable state: `(lineno, suppress, lastWasBlank)`;
each stage reads and writes only its own fields. -/
abbrev StState := Nat × Bool × Bool

/-- Write a chunk into a chain of stages (head outermost), threading the
per-stage states and the byte log of the final sink; the empty chain is the
always-succeeding final sink itself. -/
def chainWrite : List StageDesc → List StState × List Nat → List Nat →
    Nat × (List StState × List Nat) × Bool
  | [], s, data => (data.length, (s.1, s.2 ++ data), false)
  | d :: ds, s, data =>
    let st0 := s.1.headD (0, false, false)
    let rest : List StState × List Nat := (s.1.tail, s.2)
    let inner : SinkFn (List StState × List Nat) := fun t c => chainWrite ds t c
    match d with
    | .eol =>
      let r := byteReplacerWrite inner 10 [36, 10] rest data
      (r.n, (st0 :: r.inner.1, r.inner.2), r.err)
    | .tabs =>
      let r := byteReplacerWrite inner 9 [94, 73] rest data
      (r.n, (st0 :: r.inner.1, r.inner.2), r.err)
    | .nonprint =>
      let r := nonprintWrite inner rest data
      (r.n, (st0 :: r.inner.1, r.inner.2), r.err)
    | .squeeze =>
      let r := blankSqueezerWrite inner st0.2.2 rest data
      (r.n, ((st0.1, st0.2.1, r.st) :: r.inner.1, r.inner.2), r.err)
    | .numPlain =>
      let r := lineNumbererWrite inner st0.1 st0.2.1 rest data
      (r.n, ((r.st.1, r.st.2, st0.2.2) :: r.inner.1, r.inner.2), r.err)
    | .numNonblank =>
      let r := nonblankWrite inner st0.1 st0.2.1 rest data
      (r.n, ((r.st.1, r.st.2, st0.2.2) :: r.inner.1, r.inner.2), r.err)

/-- Fresh per-stage states for a chain of the given stages. -/
def freshStates (ds : List StageDesc) : List StState :=
  ds.map fun _ => (0, false, false)

/-! ### Step-unfolding lemmas for the stage loops -/

theorem not_length_lt_one {α : Type} (l : List α) (hne : l ≠ []) :
    ¬ l.length < 1 := by
  have := List.length_pos.mpr hne
  omega

theorem byteReplacerLoop_skip {σ : Type} (inner : SinkFn σ) (sep : Nat)
    (rep : List Nat) (fields : List (List Nat)) (n : Nat) (s : σ) :
    byteReplacerLoop inner sep rep ([] :: fields) n s
      = byteReplacerLoop inner sep rep fields n s := rfl

theorem byteReplacerLoop_other {σ : Type} (inner : SinkFn σ) (sep : Nat)
    (rep : List Nat) (field : List Nat) (fields : List (List Nat))
    (n : Nat) (s : σ) (hne : field ≠ []) (hsep : field.getLastD 0 ≠ sep) :
    byteReplacerLoop inner sep rep (field :: fields) n s
      = if (inner s field).2.2 then ⟨n + (inner s field).1, (), (inner s field).2.1, true⟩
        else byteReplacerLoop inner sep rep fields (n + (inner s field).1) (inner s field).2.1 := by
  rw [byteReplacerLoop, if_neg (not_length_lt_one field hne), if_pos hsep]

theorem byteReplacerLoop_sep {σ : Type} (inner : SinkFn σ) (sep : Nat)
    (rep : List Nat) (field : List Nat) (fields : List (List Nat))
    (n : Nat) (s : σ) (hne : field ≠ []) (hsep : field.getLastD 0 = sep) :
    byteReplacerLoop inner sep rep (field :: fields) n s
      = if (inner s field.dropLast).2.2 then
          ⟨n + (inner s field.dropLast).1, (), (inner s field.dropLast).2.1, true⟩
        else if (inner (inner s field.dropLast).2.1 rep).2.2 then
          ⟨n + (inner s field.dropLast).1, (), (inner (inner s field.dropLast).2.1 rep).2.1, true⟩
        else byteReplacerLoop inner sep rep fields (n + (inner s field.dropLast).1 + 1)
          (inner (inner s field.dropLast).2.1 rep).2.1 := by
  rw [byteReplacerLoop, if_neg (not_length_lt_one field hne),
    if_neg (fun h => h hsep)]

theorem lineNumbererLoop_sup {σ : Type} (inner : SinkFn σ) (line : List Nat)
    (rest : List (List Nat)) (lineno : Nat) (s : σ) (n : Nat) :
    lineNumbererLoop inner (line :: rest) lineno true s n
      = if (inner s line).2.2 then
          ⟨n + (inner s line).1, (lineno, true), (inner s line).2.1, true⟩
        else lineNumbererLoop inner rest lineno
          (line.isEmpty || (line.getLastD 0 != 10)) (inner s line).2.1
          (n + (inner s line).1) := rfl

theorem lineNumbererLoop_num {σ : Type} (inner : SinkFn σ) (line : List Nat)
    (rest : List (List Nat)) (lineno : Nat) (s : σ) (n : Nat) :
    lineNumbererLoop inner (line :: rest) lineno false s n
      = if (inner s (fmtLineno (lineno + 1))).2.2 then
          ⟨n, (lineno + 1, false), (inner s (fmtLineno (lineno + 1))).2.1, true⟩
        else if (inner (inner s (fmtLineno (lineno + 1))).2.1 line).2.2 then
          ⟨n + (inner (inner s (fmtLineno (lineno + 1))).2.1 line).1, (lineno + 1, false),
            (inner (inner s (fmtLineno (lineno + 1))).2.1 line).2.1, true⟩
        else lineNumbererLoop inner rest (lineno + 1)
          (line.isEmpty || (line.getLastD 0 != 10))
          (inner (inner s (fmtLineno (lineno + 1))).2.1 line).2.1
          (n + (inner (inner s (fmtLineno (lineno + 1))).2.1 line).1) := rfl

theorem nonblankLoop_blank {σ : Type} (inner : SinkFn σ) (line : List Nat)
    (rest : List (List Nat)) (lineno : Nat) (sup : Bool) (s : σ) (n : Nat)
    (hb : (line.isEmpty || (line.headD 0 == 10)) = true) :
    nonblankLoop inner (line :: rest) lineno sup s n
      = if (inner s line).2.2 then
          ⟨n + (inner s line).1, (lineno, true), (inner s line).2.1, true⟩
        else nonblankLoop inner rest lineno
          (line.isEmpty || (line.getLastD 0 != 10)) (inner s line).2.1
          (n + (inner s line).1) := by
  rw [nonblankLoop, hb]
  rfl

theorem nonblankLoop_sup {σ : Type} (inner : SinkFn σ) (line : List Nat)
    (rest : List (List Nat)) (lineno : Nat) (s : σ) (n : Nat)
    (hb : (line.isEmpty || (line.headD 0 == 10)) = false) :
    nonblankLoop inner (line :: rest) lineno true s n
      = if (inner s line).2.2 then
          ⟨n + (inner s line).1, (lineno, true), (inner s line).2.1, true⟩
        else nonblankLoop inner rest lineno
          (line.isEmpty || (line.getLastD 0 != 10)) (inner s line).2.1
          (n + (inner s line).1) := by
  rw [nonblankLoop, hb]
  rfl

theorem nonblankLoop_num {σ : Type} (inner : SinkFn σ) (line : List Nat)
    (rest : List (List Nat)) (lineno : Nat) (s : σ) (n : Nat)
    (hb : (line.isEmpty || (line.headD 0 == 10)) = false) :
    nonblankLoop inner (line :: rest) lineno false s n
      = if (inner s (fmtLineno (lineno + 1))).2.2 then
          ⟨n, (lineno + 1, false), (inner s (fmtLineno (lineno + 1))).2.1, true⟩
        else if (inner (inner s (fmtLineno (lineno + 1))).2.1 line).2.2 then
          ⟨n + (inner (inner s (fmtLineno (lineno + 1))).2.1 line).1, (lineno + 1, false),
            (inner (inner s (fmtLineno (lineno + 1))).2.1 line).2.1, true⟩
        else nonblankLoop inner rest (lineno + 1)
          (line.isEmpty || (line.getLastD 0 != 10))
          (inner (inner s (fmtLineno (lineno + 1))).2.1 line).2.1
          (n + (inner (inner s (fmtLineno (lineno + 1))).2.1 line).1) := by
  rw [nonblankLoop, hb]
  rfl

theorem blankSqueezerLoop_skip {σ : Type} (inner : SinkFn σ)
    (rest : List (List Nat)) (lwb : Bool) (s : σ) (n : Nat) :
    blankSqueezerLoop inner ([] :: rest) lwb s n
      = blankSqueezerLoop inner rest lwb s n := rfl

theorem blankSqueezerLoop_mid {σ : Type} (inner : SinkFn σ) (line : List Nat)
    (rest : List (List Nat)) (lwb : Bool) (s : σ) (n : Nat)
    (hne : line ≠ []) (hlast : line.getLastD 0 ≠ 10) :
    blankSqueezerLoop inner (line :: rest) lwb s n
      = if (inner s line).2.2 then ⟨n + (inner s line).1, lwb, (inner s line).2.1, true⟩
        else blankSqueezerLoop inner rest lwb (inner s line).2.1 (n + (inner s line).1) := by
  rw [blankSqueezerLoop, if_neg (not_length_lt_one line hne), if_pos hlast]

theorem blankSqueezerLoop_blank_skip {σ : Type} (inner : SinkFn σ) (line : List Nat)
    (rest : List (List Nat)) (s : σ) (n : Nat)
    (hne : line ≠ []) (hlast : line.getLastD 0 = 10) (hhead : line.headD 0 = 10) :
    blankSqueezerLoop inner (line :: rest) true s n
      = blankSqueezerLoop inner rest true s (n + 1) := by
  rw [blankSqueezerLoop, if_neg (not_length_lt_one line hne),
    if_neg (fun h => h hlast), if_pos hhead, if_pos rfl]

theorem blankSqueezerLoop_blank_write {σ : Type} (inner : SinkFn σ) (line : List Nat)
    (rest : List (List Nat)) (s : σ) (n : Nat)
    (hne : line ≠ []) (hlast : line.getLastD 0 = 10) (hhead : line.headD 0 = 10) :
    blankSqueezerLoop inner (line :: rest) false s n
      = if (inner s line).2.2 then ⟨n + (inner s line).1, false, (inner s line).2.1, true⟩
        else blankSqueezerLoop inner rest true (inner s line).2.1 (n + (inner s line).1) := by
  rw [blankSqueezerLoop, if_neg (not_length_lt_one line hne),
    if_neg (fun h => h hlast), if_pos hhead,
    if_neg (by simp : ¬ false = true)]

theorem blankSqueezerLoop_nonblank {σ : Type} (inner : SinkFn σ) (line : List Nat)
    (rest : List (List Nat)) (lwb : Bool) (s : σ) (n : Nat)
    (hne : line ≠ []) (hlast : line.getLastD 0 = 10) (hhead : line.headD 0 ≠ 10) :
    blankSqueezerLoop inner (line :: rest) lwb s n
      = if (inner s line).2.2 then ⟨n + (inner s line).1, false, (inner s line).2.1, true⟩
        else blankSqueezerLoop inner rest false (inner s line).2.1 (n + (inner s line).1) := by
  rw [blankSqueezerLoop, if_neg (not_length_lt_one line hne),
    if_neg (fun h => h hlast), if_neg hhead]

theorem nonprintLoop_skip {σ : Type} (inner : SinkFn σ)
    (fields : List (List Nat)) (s : σ) (n : Nat) :
    nonprintLoop inner ([] :: fields) s n = nonprintLoop inner fields s n := rfl

theorem nonprintLoop_ctrl {σ : Type} (inner : SinkFn σ) (field : List Nat)
    (fields : List (List Nat)) (s : σ) (n : Nat) (hne : field ≠ [])
    (h1 : field.getLastD 0 < 32 ∧ field.getLastD 0 ≠ 10 ∧ field.getLastD 0 ≠ 9) :
    nonprintLoop inner (field :: fields) s n
      = if (inner s field.dropLast).2.2 then
          ⟨n + (inner s field.dropLast).1, (), (inner s field.dropLast).2.1, true⟩
        else if (inner (inner s field.dropLast).2.1 [94, field.getLastD 0 + 64]).2.2 then
          ⟨n + (inner s field.dropLast).1, (),
            (inner (inner s field.dropLast).2.1 [94, field.getLastD 0 + 64]).2.1, true⟩
        else nonprintLoop inner fields
          (inner (inner s field.dropLast).2.1 [94, field.getLastD 0 + 64]).2.1
          (n + (inner s field.dropLast).1 + 1) := by
  rw [nonprintLoop, if_neg (not_length_lt_one field hne), if_pos h1]

theorem nonprintLoop_plain {σ : Type} (inner : SinkFn σ) (field : List Nat)
    (fields : List (List Nat)) (s : σ) (n : Nat) (hne : field ≠ [])
    (h1 : ¬ (field.getLastD 0 < 32 ∧ field.getLastD 0 ≠ 10 ∧ field.getLastD 0 ≠ 9))
    (h2 : field.getLastD 0 < 127) :
    nonprintLoop inner (field :: fields) s n
      = if (inner s field).2.2 then ⟨n + (inner s field).1, (), (inner s field).2.1, true⟩
        else nonprintLoop inner fields (inner s field).2.1 (n + (inner s field).1) := by
  rw [nonprintLoop, if_neg (not_length_lt_one field hne), if_neg h1, if_pos h2]

theorem nonprintLoop_del {σ : Type} (inner : SinkFn σ) (field : List Nat)
    (fields : List (List Nat)) (s : σ) (n : Nat) (hne : field ≠ [])
    (h3 : field.getLastD 0 = 127) :
    nonprintLoop inner (field :: fields) s n
      = if (inner s field.dropLast).2.2 then
          ⟨n + (inner s field.dropLast).1, (), (inner s field.dropLast).2.1, true⟩
        else if (inner (inner s field.dropLast).2.1 [94, 63]).2.2 then
          ⟨n + (inner s field.dropLast).1, (),
            (inner (inner s field.dropLast).2.1 [94, 63]).2.1, true⟩
        else nonprintLoop inner fields
          (inner (inner s field.dropLast).2.1 [94, 63]).2.1
          (n + (inner s field.dropLast).1 + 1) := by
  rw [nonprintLoop, if_neg (not_length_lt_one field hne),
    if_neg (by omega : ¬ (field.getLastD 0 < 32 ∧ field.getLastD 0 ≠ 10 ∧ field.getLastD 0 ≠ 9)),
    if_neg (by omega : ¬ field.getLastD 0 < 127), if_pos h3]

theorem nonprintLoop_meta {σ : Type} (inner : SinkFn σ) (field : List Nat)
    (fields : List (List Nat)) (s : σ) (n : Nat) (hne : field ≠ [])
    (hge : 128 ≤ field.getLastD 0) (h4 : field.getLastD 0 < 128 + 32) :
    nonprintLoop inner (field :: fields) s n
      = if (inner s field.dropLast).2.2 then
          ⟨n + (inner s field.dropLast).1, (), (inner s field.dropLast).2.1, true⟩
        else if (inner (inner s field.dropLast).2.1 [77, 45, 94, field.getLastD 0 - 128 + 64]).2.2 then
          ⟨n + (inner s field.dropLast).1, (),
            (inner (inner s field.dropLast).2.1 [77, 45, 94, field.getLastD 0 - 128 + 64]).2.1, true⟩
        else nonprintLoop inner fields
          (inner (inner s field.dropLast).2.1 [77, 45, 94, field.getLastD 0 - 128 + 64]).2.1
          (n + (inner s field.dropLast).1 + 1) := by
  rw [nonprintLoop, if_neg (not_length_lt_one field hne),
    if_neg (by omega : ¬ (field.getLastD 0 < 32 ∧ field.getLastD 0 ≠ 10 ∧ field.getLastD 0 ≠ 9)),
    if_neg (by omega : ¬ field.getLastD 0 < 127),
    if_neg (by omega : ¬ field.getLastD 0 = 127), if_pos h4]

theorem nonprintLoop_maxmeta {σ : Type} (inner : SinkFn σ) (field : List Nat)
    (fields : List (List Nat)) (s : σ) (n : Nat) (hne : field ≠ [])
    (h5 : field.getLastD 0 = 255) :
    nonprintLoop inner (field :: fields) s n
      = if (inner s field.dropLast).2.2 then
          ⟨n + (inner s field.dropLast).1, (), (inner s field.dropLast).2.1, true⟩
        else if (inner (inner s field.dropLast).2.1 [77, 45, 94, 63]).2.2 then
          ⟨n + (inner s field.dropLast).1, (),
            (inner (inner s field.dropLast).2.1 [77, 45, 94, 63]).2.1, true⟩
        else nonprintLoop inner fields
          (inner (inner s field.dropLast).2.1 [77, 45, 94, 63]).2.1
          (n + (inner s field.dropLast).1 + 1) := by
  rw [nonprintLoop, if_neg (not_length_lt_one field hne),
    if_neg (by omega : ¬ (field.getLastD 0 < 32 ∧ field.getLastD 0 ≠ 10 ∧ field.getLastD 0 ≠ 9)),
    if_neg (by omega : ¬ field.getLastD 0 < 127),
    if_neg (by omega : ¬ field.getLastD 0 = 127),
    if_neg (by omega : ¬ field.getLastD 0 < 128 + 32), if_pos h5]

theorem nonprintLoop_himeta {σ : Type} (inner : SinkFn σ) (field : List Nat)
    (fields : List (List Nat)) (s : σ) (n : Nat) (hne : field ≠ [])
    (hge : 128 + 32 ≤ field.getLastD 0) (h5 : field.getLastD 0 ≠ 255) :
    nonprintLoop inner (field :: fields) s n
      = if (inner s field.dropLast).2.2 then
          ⟨n + (inner s field.dropLast).1, (), (inner s field.dropLast).2.1, true⟩
        else if (inner (inner s field.dropLast).2.1 [77, 45, field.getLastD 0 - 128]).2.2 then
          ⟨n + (inner s field.dropLast).1, (),
            (inner (inner s field.dropLast).2.1 [77, 45, field.getLastD 0 - 128]).2.1, true⟩
        else nonprintLoop inner fields
          (inner (inner s field.dropLast).2.1 [77, 45, field.getLastD 0 - 128]).2.1
          (n + (inner s field.dropLast).1 + 1) := by
  rw [nonprintLoop, if_neg (not_length_lt_one field hne),
    if_neg (by omega : ¬ (field.getLastD 0 < 32 ∧ field.getLastD 0 ≠ 10 ∧ field.getLastD 0 ≠ 9)),
    if_neg (by omega : ¬ field.getLastD 0 < 127),
    if_neg (by omega : ¬ field.getLastD 0 = 127),
    if_neg (by omega : ¬ field.getLastD 0 < 128 + 32), if_neg h5]

/-! ### Structure of the shared field splitter -/

theorem splitAux_flatten (p : Nat → Bool) :
    ∀ (data acc : List Nat), (splitAux p acc data).flatten = acc ++ data := by
  intro data
  induction data with
  | nil =>
    intro acc
    by_cases h : acc.isEmpty
    · simp [splitAux, h, List.isEmpty_iff.mp h]
    · simp [splitAux, h]
  | cons b rest ih =>
    intro acc
    cases hp : p b
    · simp [splitAux, hp, ih (acc ++ [b])]
    · simp [splitAux, hp, ih []]

theorem splitAux_ne_nil (p : Nat → Bool) :
    ∀ (data acc : List Nat), ∀ f ∈ splitAux p acc data, f ≠ [] := by
  intro data
  induction data with
  | nil =>
    intro acc f hf
    by_cases h : acc.isEmpty
    · simp [splitAux, h] at hf
    · simp [splitAux, h] at hf
      subst hf
      simpa [List.isEmpty_iff] using h
  | cons b rest ih =>
    intro acc f hf
    cases hp : p b
    · simp only [splitAux, hp, Bool.false_eq_true, if_false] at hf
      exact ih (acc ++ [b]) f hf
    · simp only [splitAux, hp, if_true, List.mem_cons] at hf
      rcases hf with hf | hf
      · subst hf; simp
      · exact ih [] f hf

theorem splitAux_dropLast_pred (p : Nat → Bool) :
    ∀ (data acc : List Nat), (∀ b ∈ acc, p b = false) →
      ∀ f ∈ splitAux p acc data, ∀ b ∈ f.dropLast, p b = false := by
  intro data
  induction data with
  | nil =>
    intro acc hacc f hf b hb
    by_cases h : acc.isEmpty
    · simp [splitAux, h] at hf
    · simp [splitAux, h] at hf
      subst hf
      exact hacc b (List.dropLast_sublist f |>.mem hb)
  | cons c rest ih =>
    intro acc hacc f hf b hb
    cases hp : p c
    · simp only [splitAux, hp, Bool.false_eq_true, if_false] at hf
      refine ih (acc ++ [c]) ?_ f hf b hb
      intro x hx
      rcases List.mem_append.mp hx with hx | hx
      · exact hacc x hx
      · simp only [List.mem_singleton] at hx
        subst hx
        exact hp
    · simp only [splitAux, hp, if_true, List.mem_cons] at hf
      rcases hf with hf | hf
      · subst hf
        rw [List.dropLast_concat] at hb
        exact hacc b hb
      · exact ih [] (by simp) f hf b hb

theorem splitAux_inner_ends (p : Nat → Bool) :
    ∀ (data acc : List Nat),
      ∀ f ∈ (splitAux p acc data).dropLast, p (f.getLastD 0) = true := by
  intro data
  induction data with
  | nil =>
    intro acc f hf
    by_cases h : acc.isEmpty <;> simp [splitAux, h] at hf
  | cons c rest ih =>
    intro acc f hf
    cases hp : p c
    · simp only [splitAux, hp, Bool.false_eq_true, if_false] at hf
      exact ih (acc ++ [c]) f hf
    · simp only [splitAux, hp, if_true] at hf
      cases hrest : splitAux p [] rest with
      | nil => rw [hrest] at hf; simp at hf
      | cons g gs =>
        rw [hrest, List.dropLast_cons₂, List.mem_cons] at hf
        rcases hf with hf | hf
        · subst hf
          rw [List.getLastD_concat]
          exact hp
        · exact ih [] f (hrest ▸ hf)

theorem splitAux_no_match (p : Nat → Bool) :
    ∀ (data acc : List Nat), (∀ b ∈ data, p b = false) →
      splitAux p acc data = if (acc ++ data).isEmpty then [] else [acc ++ data] := by
  intro data
  induction data with
  | nil => intro acc _; simp [splitAux]
  | cons c rest ih =>
    intro acc h
    have hc : p c = false := h c (by simp)
    rw [splitAux, hc]
    rw [ih (acc ++ [c]) (fun b hb => h b (by simp [hb]))]
    simp

theorem splitOnPred_flatten (p : Nat → Bool) (data : List Nat) :
    (splitOnPred p data).flatten = data :=
  splitAux_flatten p data []

theorem splitOnPred_sum_length (p : Nat → Bool) (data : List Nat) :
    ((splitOnPred p data).map List.length).sum = data.length := by
  rw [← List.length_flatten, splitOnPred_flatten]

theorem splitOnPred_ne_nil (p : Nat → Bool) (data : List Nat) :
    ∀ f ∈ splitOnPred p data, f ≠ [] :=
  splitAux_ne_nil p data []

theorem splitOnPred_dropLast_pred (p : Nat → Bool) (data : List Nat) :
    ∀ f ∈ splitOnPred p data, ∀ b ∈ f.dropLast, p b = false :=
  splitAux_dropLast_pred p data [] (by simp)

theorem splitOnPred_inner_ends (p : Nat → Bool) (data : List Nat) :
    ∀ f ∈ (splitOnPred p data).dropLast, p (f.getLastD 0) = true :=
  splitAux_inner_ends p data []

theorem splitOnPred_no_match (p : Nat → Bool) (data : List Nat)
    (h : ∀ b ∈ data, p b = false) (hne : data ≠ []) :
    splitOnPred p data = [data] := by
  rw [splitOnPred, splitAux_no_match p data [] h]
  simp [hne]

theorem splitOnPred_mem_of_mem (p : Nat → Bool) (data : List Nat) :
    ∀ f ∈ splitOnPred p data, ∀ b ∈ f, b ∈ data := by
  intro f hf b hb
  rw [← splitOnPred_flatten p data]
  exact List.mem_flatten.mpr ⟨f, hf, hb⟩

/-! ### Accepted counts under a well-behaved inner sink -/

/-- A well-behaved inner sink: every write succeeds and accepts the whole
chunk (the `io.Writer` success contract). -/
def SinkOk {σ : Type} (inner : SinkFn σ) : Prop :=
  ∀ s c, (inner s c).1 = c.length ∧ (inner s c).2.2 = false

theorem okSink_ok : SinkOk okSink :=
  fun _ _ => ⟨rfl, rfl⟩

theorem byteReplacerLoop_count {σ : Type} {inner : SinkFn σ} (hok : SinkOk inner)
    (sep : Nat) (rep : List Nat) :
    ∀ (fields : List (List Nat)) (n : Nat) (s : σ),
      (byteReplacerLoop inner sep rep fields n s).n
        = n + (fields.map List.length).sum := by
  intro fields
  induction fields with
  | nil => intro n s; simp [byteReplacerLoop]
  | cons field fields ih =>
    intro n s
    have hlenpos : field = [] ∨ 0 < field.length := by
      rcases field with _ | _
      · exact Or.inl rfl
      · right; simp
    by_cases hne : field = []
    · subst hne
      rw [byteReplacerLoop_skip, ih]
      simp
    · have hpos : 0 < field.length := List.length_pos.mpr hne
      by_cases hsep : field.getLastD 0 = sep
      · rw [byteReplacerLoop_sep inner sep rep field fields n s hne hsep,
          (hok s field.dropLast).2, if_neg Bool.false_ne_true,
          (hok (inner s field.dropLast).2.1 rep).2, if_neg Bool.false_ne_true,
          ih, (hok s field.dropLast).1, List.length_dropLast]
        simp only [List.map_cons, List.sum_cons]
        omega
      · rw [byteReplacerLoop_other inner sep rep field fields n s hne hsep,
          (hok s field).2, if_neg Bool.false_ne_true, ih, (hok s field).1]
        simp only [List.map_cons, List.sum_cons]
        omega

theorem lineNumbererLoop_count {σ : Type} {inner : SinkFn σ} (hok : SinkOk inner) :
    ∀ (lines : List (List Nat)) (lineno : Nat) (sup : Bool) (s : σ) (n : Nat),
      (lineNumbererLoop inner lines lineno sup s n).n
        = n + (lines.map List.length).sum := by
  intro lines
  induction lines with
  | nil => intro lineno sup s n; simp [lineNumbererLoop]
  | cons line rest ih =>
    intro lineno sup s n
    cases sup
    · rw [lineNumbererLoop_num,
        (hok s (fmtLineno (lineno + 1))).2, if_neg Bool.false_ne_true,
        (hok (inner s (fmtLineno (lineno + 1))).2.1 line).2, if_neg Bool.false_ne_true,
        ih, (hok (inner s (fmtLineno (lineno + 1))).2.1 line).1]
      simp only [List.map_cons, List.sum_cons]
      omega
    · rw [lineNumbererLoop_sup,
        (hok s line).2, if_neg Bool.false_ne_true, ih, (hok s line).1]
      simp only [List.map_cons, List.sum_cons]
      omega

theorem nonblankLoop_count {σ : Type} {inner : SinkFn σ} (hok : SinkOk inner) :
    ∀ (lines : List (List Nat)) (lineno : Nat) (sup : Bool) (s : σ) (n : Nat),
      (nonblankLoop inner lines lineno sup s n).n
        = n + (lines.map List.length).sum := by
  intro lines
  induction lines with
  | nil => intro lineno sup s n; simp [nonblankLoop]
  | cons line rest ih =>
    intro lineno sup s n
    cases hb : (line.isEmpty || (line.headD 0 == 10))
    · cases sup
      · rw [nonblankLoop_num inner line rest lineno s n hb,
          (hok s (fmtLineno (lineno + 1))).2, if_neg Bool.false_ne_true,
          (hok (inner s (fmtLineno (lineno + 1))).2.1 line).2, if_neg Bool.false_ne_true,
          ih, (hok (inner s (fmtLineno (lineno + 1))).2.1 line).1]
        simp only [List.map_cons, List.sum_cons]
        omega
      · rw [nonblankLoop_sup inner line rest lineno s n hb,
          (hok s line).2, if_neg Bool.false_ne_true, ih, (hok s line).1]
        simp only [List.map_cons, List.sum_cons]
        omega
    · rw [nonblankLoop_blank inner line rest lineno sup s n hb,
        (hok s line).2, if_neg Bool.false_ne_true, ih, (hok s line).1]
      simp only [List.map_cons, List.sum_cons]
      omega

theorem head_mem_dropLast (l : List Nat) (h : 2 ≤ l.length) :
    l.headD 0 ∈ l.dropLast := by
  match l with
  | [] => simp at h
  | [a] => simp at h
  | a :: b :: t => simp [List.dropLast_cons₂]

theorem blankSqueezerLoop_count {σ : Type} {inner : SinkFn σ} (hok : SinkOk inner) :
    ∀ (lines : List (List Nat)),
      (∀ f ∈ lines, ∀ b ∈ f.dropLast, b ≠ 10) →
      ∀ (lwb : Bool) (s : σ) (n : Nat),
      (blankSqueezerLoop inner lines lwb s n).n
        = n + (lines.map List.length).sum := by
  intro lines
  induction lines with
  | nil => intro _ lwb s n; simp [blankSqueezerLoop]
  | cons line rest ih =>
    intro hsp lwb s n
    have hsp2 : ∀ f ∈ rest, ∀ b ∈ f.dropLast, b ≠ 10 :=
      fun f hf => hsp f (by simp [hf])
    by_cases hne : line = []
    · subst hne
      rw [blankSqueezerLoop_skip, ih hsp2]
      simp
    · have hpos : 0 < line.length := List.length_pos.mpr hne
      by_cases hlast : line.getLastD 0 = 10
      · by_cases hhead : line.headD 0 = 10
        · have hone : line.length = 1 := by
            by_contra hlong
            have h2 : 2 ≤ line.length := by omega
            exact hsp line (by simp) (line.headD 0) (head_mem_dropLast line h2) hhead
          cases lwb
          · rw [blankSqueezerLoop_blank_write inner line rest s n hne hlast hhead,
              (hok s line).2, if_neg Bool.false_ne_true, ih hsp2, (hok s line).1]
            simp only [List.map_cons, List.sum_cons]
            omega
          · rw [blankSqueezerLoop_blank_skip inner line rest s n hne hlast hhead,
              ih hsp2]
            simp only [List.map_cons, List.sum_cons]
            omega
        · rw [blankSqueezerLoop_nonblank inner line rest lwb s n hne hlast hhead,
            (hok s line).2, if_neg Bool.false_ne_true, ih hsp2, (hok s line).1]
          simp only [List.map_cons, List.sum_cons]
          omega
      · rw [blankSqueezerLoop_mid inner line rest lwb s n hne hlast,
          (hok s line).2, if_neg Bool.false_ne_true, ih hsp2, (hok s line).1]
        simp only [List.map_cons, List.sum_cons]
        omega

theorem nonprintLoop_count {σ : Type} {inner : SinkFn σ} (hok : SinkOk inner) :
    ∀ (fields : List (List Nat)) (s : σ) (n : Nat),
      (nonprintLoop inner fields s n).n = n + (fields.map List.length).sum := by
  intro fields
  induction fields with
  | nil => intro s n; simp [nonprintLoop]
  | cons field fields ih =>
    intro s n
    by_cases hne : field = []
    · subst hne
      rw [nonprintLoop_skip, ih]
      simp
    · have hpos : 0 < field.length := List.length_pos.mpr hne
      have hdrop : field.dropLast.length = field.length - 1 := List.length_dropLast field
      by_cases h1 : field.getLastD 0 < 32 ∧ field.getLastD 0 ≠ 10 ∧ field.getLastD 0 ≠ 9
      · rw [nonprintLoop_ctrl inner field fields s n hne h1,
          (hok s field.dropLast).2, if_neg Bool.false_ne_true,
          (hok (inner s field.dropLast).2.1 [94, field.getLastD 0 + 64]).2,
          if_neg Bool.false_ne_true, ih, (hok s field.dropLast).1]
        simp only [List.map_cons, List.sum_cons]
        omega
      · by_cases h2 : field.getLastD 0 < 127
        · rw [nonprintLoop_plain inner field fields s n hne h1 h2,
            (hok s field).2, if_neg Bool.false_ne_true, ih, (hok s field).1]
          simp only [List.map_cons, List.sum_cons]
          omega
        · by_cases h3 : field.getLastD 0 = 127
          · rw [nonprintLoop_del inner field fields s n hne h3,
              (hok s field.dropLast).2, if_neg Bool.false_ne_true,
              (hok (inner s field.dropLast).2.1 [94, 63]).2,
              if_neg Bool.false_ne_true, ih, (hok s field.dropLast).1]
            simp only [List.map_cons, List.sum_cons]
            omega
          · by_cases h4 : field.getLastD 0 < 128 + 32
            · rw [nonprintLoop_meta inner field fields s n hne (by omega) h4,
                (hok s field.dropLast).2, if_neg Bool.false_ne_true,
                (hok (inner s field.dropLast).2.1
                  [77, 45, 94, field.getLastD 0 - 128 + 64]).2,
                if_neg Bool.false_ne_true, ih, (hok s field.dropLast).1]
              simp only [List.map_cons, List.sum_cons]
              omega
            · by_cases h5 : field.getLastD 0 = 255
              · rw [nonprintLoop_maxmeta inner field fields s n hne h5,
                  (hok s field.dropLast).2, if_neg Bool.false_ne_true,
                  (hok (inner s field.dropLast).2.1 [77, 45, 94, 63]).2,
                  if_neg Bool.false_ne_true, ih, (hok s field.dropLast).1]
                simp only [List.map_cons, List.sum_cons]
                omega
              · rw [nonprintLoop_himeta inner field fields s n hne (by omega) h5,
                  (hok s field.dropLast).2, if_neg Bool.false_ne_true,
                  (hok (inner s field.dropLast).2.1
                    [77, 45, field.getLastD 0 - 128]).2,
                  if_neg Bool.false_ne_true, ih, (hok s field.dropLast).1]
                simp only [List.map_cons, List.sum_cons]
                omega

/-! ### Decimal digits and the line-number prefix -/

theorem digitsAux_foldl :
    ∀ (fuel n : Nat), n < fuel →
      (digitsAux n fuel).foldl (fun a d => a * 10 + (d - 48)) 0 = n := by
  intro fuel
  induction fuel with
  | zero => intro n h; omega
  | succ fuel ih =>
    intro n h
    by_cases h10 : n < 10
    · simp [digitsAux, h10]
    · have hlt : n / 10 < n := Nat.div_lt_self (by omega) (by omega)
      have hrec : n / 10 < fuel := by omega
      rw [digitsAux, if_neg h10, List.foldl_append, ih (n / 10) hrec]
      simp
      omega

theorem digitsAux_mem :
    ∀ (fuel n : Nat), n < fuel → ∀ d ∈ digitsAux n fuel, 48 ≤ d ∧ d ≤ 57 := by
  intro fuel
  induction fuel with
  | zero => intro n h; omega
  | succ fuel ih =>
    intro n h d hd
    by_cases h10 : n < 10
    · simp [digitsAux, h10] at hd
      omega
    · have hlt : n / 10 < n := Nat.div_lt_self (by omega) (by omega)
      have hrec : n / 10 < fuel := by omega
      rw [digitsAux, if_neg h10] at hd
      rcases List.mem_append.mp hd with hd | hd
      · exact ih (n / 10) hrec d hd
      · simp at hd
        omega

theorem digitsAux_length_le :
    ∀ (k fuel n : Nat), n < fuel → n < 10 ^ k → 0 < k →
      (digitsAux n fuel).length ≤ k := by
  intro k
  induction k with
  | zero => intro fuel n _ _ hk; omega
  | succ k ih =>
    intro fuel n hfuel hpow _
    cases fuel with
    | zero => omega
    | succ fuel =>
      by_cases h10 : n < 10
      · simp [digitsAux, h10]
      · have hk0 : 0 < k := by
          rcases Nat.eq_zero_or_pos k with rfl | h
          · simp at hpow
            omega
          · exact h
        have hlt : n / 10 < n := Nat.div_lt_self (by omega) (by omega)
        have hrec1 : n / 10 < fuel := by omega
        have hrec2 : n / 10 < 10 ^ k := by
          have hps : (10 : Nat) ^ (k + 1) = 10 ^ k * 10 := pow_succ 10 k
          omega
        have hih := ih fuel (n / 10) hrec1 hrec2 hk0
        rw [digitsAux, if_neg h10, List.length_append]
        simp
        omega

theorem decimalDigits_foldl (n : Nat) :
    (decimalDigits n).foldl (fun a d => a * 10 + (d - 48)) 0 = n :=
  digitsAux_foldl (n + 1) n (by omega)

theorem decimalDigits_mem (n : Nat) :
    ∀ d ∈ decimalDigits n, 48 ≤ d ∧ d ≤ 57 :=
  digitsAux_mem (n + 1) n (by omega)

theorem decimalDigits_length_le6 (n : Nat) (h : n < 1000000) :
    (decimalDigits n).length ≤ 6 := by
  have h6 : (10 : Nat) ^ 6 = 1000000 := by norm_num
  exact digitsAux_length_le 6 (n + 1) n (by omega) (by omega) (by omega)

/-! ### Byte-wise output of the non-printable escaper -/

theorem dropLast_concat_getLastD (l : List Nat) (hne : l ≠ []) :
    l.dropLast ++ [l.getLastD 0] = l := by
  induction l using List.reverseRecOn with
  | nil => simp at hne
  | append_singleton xs x _ => simp [List.dropLast_concat, List.getLastD_concat]

theorem map_specEscByte_printable (l : List Nat)
    (h : ∀ b ∈ l, 32 ≤ b ∧ b < 127) : (l.map specEscByte).flatten = l := by
  induction l with
  | nil => simp
  | cons a t ih =>
    obtain ⟨h1, h2⟩ := h a (by simp)
    have ha : specEscByte a = [a] := by
      rw [specEscByte, if_neg (by omega), if_neg (by omega), if_pos h2]
    simp only [List.map_cons, List.flatten_cons, ha]
    rw [ih (fun b hb => h b (by simp [hb]))]
    rfl

theorem nonprintLoop_skip_ok (fields : List (List Nat)) (log : List (List Nat)) (n : Nat) :
    nonprintLoop okSink ([] :: fields) log n = nonprintLoop okSink fields log n := rfl

theorem nonprintLoop_ctrl_ok (field : List Nat) (fields : List (List Nat))
    (log : List (List Nat)) (n : Nat) (hne : field ≠ [])
    (h1 : field.getLastD 0 < 32 ∧ field.getLastD 0 ≠ 10 ∧ field.getLastD 0 ≠ 9) :
    nonprintLoop okSink (field :: fields) log n
      = nonprintLoop okSink fields
          ((log ++ [field.dropLast]) ++ [[94, field.getLastD 0 + 64]])
          (n + field.dropLast.length + 1) := by
  rw [nonprintLoop_ctrl okSink field fields log n hne h1]
  rfl

theorem nonprintLoop_plain_ok (field : List Nat) (fields : List (List Nat))
    (log : List (List Nat)) (n : Nat) (hne : field ≠ [])
    (h1 : ¬ (field.getLastD 0 < 32 ∧ field.getLastD 0 ≠ 10 ∧ field.getLastD 0 ≠ 9))
    (h2 : field.getLastD 0 < 127) :
    nonprintLoop okSink (field :: fields) log n
      = nonprintLoop okSink fields (log ++ [field]) (n + field.length) := by
  rw [nonprintLoop_plain okSink field fields log n hne h1 h2]
  rfl

theorem nonprintLoop_del_ok (field : List Nat) (fields : List (List Nat))
    (log : List (List Nat)) (n : Nat) (hne : field ≠ [])
    (h3 : field.getLastD 0 = 127) :
    nonprintLoop okSink (field :: fields) log n
      = nonprintLoop okSink fields ((log ++ [field.dropLast]) ++ [[94, 63]])
          (n + field.dropLast.length + 1) := by
  rw [nonprintLoop_del okSink field fields log n hne h3]
  rfl

theorem nonprintLoop_meta_ok (field : List Nat) (fields : List (List Nat))
    (log : List (List Nat)) (n : Nat) (hne : field ≠ [])
    (hge : 128 ≤ field.getLastD 0) (h4 : field.getLastD 0 < 128 + 32) :
    nonprintLoop okSink (field :: fields) log n
      = nonprintLoop okSink fields
          ((log ++ [field.dropLast]) ++ [[77, 45, 94, field.getLastD 0 - 128 + 64]])
          (n + field.dropLast.length + 1) := by
  rw [nonprintLoop_meta okSink field fields log n hne hge h4]
  rfl

theorem nonprintLoop_maxmeta_ok (field : List Nat) (fields : List (List Nat))
    (log : List (List Nat)) (n : Nat) (hne : field ≠ [])
    (h5 : field.getLastD 0 = 255) :
    nonprintLoop okSink (field :: fields) log n
      = nonprintLoop okSink fields ((log ++ [field.dropLast]) ++ [[77, 45, 94, 63]])
          (n + field.dropLast.length + 1) := by
  rw [nonprintLoop_maxmeta okSink field fields log n hne h5]
  rfl

theorem nonprintLoop_himeta_ok (field : List Nat) (fields : List (List Nat))
    (log : List (List Nat)) (n : Nat) (hne : field ≠ [])
    (hge : 128 + 32 ≤ field.getLastD 0) (h5 : field.getLastD 0 ≠ 255) :
    nonprintLoop okSink (field :: fields) log n
      = nonprintLoop okSink fields
          ((log ++ [field.dropLast]) ++ [[77, 45, field.getLastD 0 - 128]])
          (n + field.dropLast.length + 1) := by
  rw [nonprintLoop_himeta okSink field fields log n hne hge h5]
  rfl

theorem nonprintLoop_out :
    ∀ (fields : List (List Nat)),
      (∀ f ∈ fields, ∀ b ∈ f.dropLast, 32 ≤ b ∧ b < 127) →
      ∀ (log : List (List Nat)) (n : Nat),
        (nonprintLoop okSink fields log n).inner.flatten
          = log.flatten ++ (fields.flatten.map specEscByte).flatten
        ∧ (nonprintLoop okSink fields log n).err = false := by
  intro fields
  induction fields with
  | nil => intro _ log n; simp [nonprintLoop]
  | cons field fields ih =>
    intro hsp log n
    have hsp2 : ∀ f ∈ fields, ∀ b ∈ f.dropLast, 32 ≤ b ∧ b < 127 :=
      fun f hf => hsp f (by simp [hf])
    by_cases hne : field = []
    · subst hne
      rw [nonprintLoop_skip_ok]
      obtain ⟨ha, hb⟩ := ih hsp2 log n
      refine ⟨?_, hb⟩
      rw [ha]
      simp
    · have hshort : (field.dropLast.map specEscByte).flatten = field.dropLast :=
        map_specEscByte_printable field.dropLast (hsp field (by simp))
      have hfield : field.dropLast ++ [field.getLastD 0] = field :=
        dropLast_concat_getLastD field hne
      have hmapsplit : ∀ esc : List Nat, specEscByte (field.getLastD 0) = esc →
          ((field :: fields).flatten.map specEscByte).flatten
            = field.dropLast ++ esc ++ (fields.flatten.map specEscByte).flatten := by
        intro esc hesc
        conv_lhs => rw [List.flatten_cons, ← hfield]
        rw [List.append_assoc, List.map_append, List.flatten_append, hshort]
        rw [List.map_append, List.flatten_append]
        rw [List.map_cons, List.map_nil, List.flatten_cons, List.flatten_nil,
          List.append_nil, hesc]
        rw [List.append_assoc]
      by_cases h1 : field.getLastD 0 < 32 ∧ field.getLastD 0 ≠ 10 ∧ field.getLastD 0 ≠ 9
      · rw [nonprintLoop_ctrl_ok field fields log n hne h1]
        have hesc : specEscByte (field.getLastD 0) = [94, field.getLastD 0 + 64] := by
          rw [specEscByte, if_neg (by omega), if_pos h1.1]
        obtain ⟨ha, hb⟩ := ih hsp2
          ((log ++ [field.dropLast]) ++ [[94, field.getLastD 0 + 64]])
          (n + field.dropLast.length + 1)
        refine ⟨?_, hb⟩
        rw [ha, hmapsplit _ hesc]
        simp
      · by_cases h2 : field.getLastD 0 < 127
        · rw [nonprintLoop_plain_ok field fields log n hne h1 h2]
          have hesc : specEscByte (field.getLastD 0) = [field.getLastD 0] := by
            by_cases hnt : field.getLastD 0 = 10 ∨ field.getLastD 0 = 9
            · rw [specEscByte, if_pos hnt]
            · rw [specEscByte, if_neg hnt, if_neg (by omega), if_pos h2]
          obtain ⟨ha, hb⟩ := ih hsp2 (log ++ [field]) (n + field.length)
          refine ⟨?_, hb⟩
          rw [ha, hmapsplit _ hesc]
          conv_lhs => rw [← hfield]
          simp
        · by_cases h3 : field.getLastD 0 = 127
          · rw [nonprintLoop_del_ok field fields log n hne h3]
            have hesc : specEscByte (field.getLastD 0) = [94, 63] := by
              rw [specEscByte, if_neg (by omega), if_neg (by omega),
                if_neg (by omega), if_pos h3]
            obtain ⟨ha, hb⟩ := ih hsp2 ((log ++ [field.dropLast]) ++ [[94, 63]])
              (n + field.dropLast.length + 1)
            refine ⟨?_, hb⟩
            rw [ha, hmapsplit _ hesc]
            simp
          · by_cases h4 : field.getLastD 0 < 128 + 32
            · rw [nonprintLoop_meta_ok field fields log n hne (by omega) h4]
              have hesc : specEscByte (field.getLastD 0)
                  = [77, 45, 94, field.getLastD 0 - 128 + 64] := by
                rw [specEscByte, if_neg (by omega), if_neg (by omega),
                  if_neg (by omega), if_neg (by omega), if_pos (by omega)]
              obtain ⟨ha, hb⟩ := ih hsp2
                ((log ++ [field.dropLast]) ++ [[77, 45, 94, field.getLastD 0 - 128 + 64]])
                (n + field.dropLast.length + 1)
              refine ⟨?_, hb⟩
              rw [ha, hmapsplit _ hesc]
              simp
            · by_cases h5 : field.getLastD 0 = 255
              · rw [nonprintLoop_maxmeta_ok field fields log n hne h5]
                have hesc : specEscByte (field.getLastD 0) = [77, 45, 94, 63] := by
                  rw [specEscByte, if_neg (by omega), if_neg (by omega),
                    if_neg (by omega), if_neg (by omega), if_neg (by omega),
                    if_pos h5]
                obtain ⟨ha, hb⟩ := ih hsp2
                  ((log ++ [field.dropLast]) ++ [[77, 45, 94, 63]])
                  (n + field.dropLast.length + 1)
                refine ⟨?_, hb⟩
                rw [ha, hmapsplit _ hesc]
                simp
              · rw [nonprintLoop_himeta_ok field fields log n hne (by omega) h5]
                have hesc : specEscByte (field.getLastD 0)
                    = [77, 45, field.getLastD 0 - 128] := by
                  rw [specEscByte, if_neg (by omega), if_neg (by omega),
                    if_neg (by omega), if_neg (by omega), if_neg (by omega),
                    if_neg h5]
                obtain ⟨ha, hb⟩ := ih hsp2
                  ((log ++ [field.dropLast]) ++ [[77, 45, field.getLastD 0 - 128]])
                  (n + field.dropLast.length + 1)
                refine ⟨?_, hb⟩
                rw [ha, hmapsplit _ hesc]
                simp

/-! ### Failure propagation under a failing inner sink -/

theorem failSink_fail (k : Nat) (log : List (List Nat)) (chunk : List Nat) :
    failSink k (k, log) chunk = (0, (k + 1, log), true) := by
  simp [failSink]

theorem failSink_ok (k c : Nat) (log : List (List Nat)) (chunk : List Nat)
    (h : c ≠ k) :
    failSink k (c, log) chunk = (chunk.length, (c + 1, log ++ [chunk]), false) := by
  simp [failSink, h]

theorem byteReplacerLoop_fail (k sep : Nat) (rep : List Nat) :
    ∀ (fields : List (List Nat)) (n c : Nat) (log : List (List Nat)), c ≤ k →
      ((byteReplacerLoop (failSink k) sep rep fields n (c, log)).err = true →
          (byteReplacerLoop (failSink k) sep rep fields n (c, log)).inner.1 = k + 1)
      ∧ ((byteReplacerLoop (failSink k) sep rep fields n (c, log)).err = false →
          (byteReplacerLoop (failSink k) sep rep fields n (c, log)).inner.1 ≤ k)
      ∧ (byteReplacerLoop (failSink k) sep rep fields n (c, log)).n
          ≤ n + (fields.map List.length).sum := by
  intro fields
  induction fields with
  | nil =>
    intro n c log hck
    refine ⟨fun h => ?_, fun _ => ?_, ?_⟩
    · simp [byteReplacerLoop] at h
    · simpa [byteReplacerLoop] using hck
    · simp [byteReplacerLoop]
  | cons field fields ih =>
    intro n c log hck
    by_cases hne : field = []
    · subst hne
      rw [byteReplacerLoop_skip]
      obtain ⟨ha, hb, hc⟩ := ih n c log hck
      exact ⟨ha, hb, le_trans hc (by simp)⟩
    · have hpos : 0 < field.length := List.length_pos.mpr hne
      by_cases hsep : field.getLastD 0 = sep
      · rw [byteReplacerLoop_sep (failSink k) sep rep field fields n (c, log) hne hsep]
        by_cases hc1 : c = k
        · subst hc1
          simp only [failSink_fail]
          exact ⟨fun _ => by simp, fun h => by simp at h, by simp⟩
        · simp only [failSink_ok k c log field.dropLast hc1]
          by_cases hc2 : c + 1 = k
          · rw [hc2, failSink_fail k (log ++ [field.dropLast]) rep]
            refine ⟨fun _ => by simp [hc2], fun h => by simp at h, ?_⟩
            simp only [List.map_cons, List.sum_cons]
            have hd : field.dropLast.length = field.length - 1 := List.length_dropLast field
            simp
            omega
          · rw [failSink_ok k (c + 1) (log ++ [field.dropLast]) rep hc2]
            have hck2 : c + 1 + 1 ≤ k := by omega
            obtain ⟨ha, hb, hc⟩ := ih (n + field.dropLast.length + 1) (c + 1 + 1)
              (log ++ [field.dropLast] ++ [rep]) hck2
            have hd : field.dropLast.length = field.length - 1 := List.length_dropLast field
            refine ⟨fun h => ?_, fun h => ?_, ?_⟩
            · simp only [] at h ⊢
              exact ha (by simpa using h)
            · simp only [] at h ⊢
              exact hb (by simpa using h)
            · simp only [List.map_cons, List.sum_cons]
              simp at hc ⊢
              omega
      · rw [byteReplacerLoop_other (failSink k) sep rep field fields n (c, log) hne hsep]
        by_cases hc1 : c = k
        · subst hc1
          simp only [failSink_fail]
          exact ⟨fun _ => by simp, fun h => by simp at h, by simp⟩
        · simp only [failSink_ok k c log field hc1]
          have hck2 : c + 1 ≤ k := by omega
          obtain ⟨ha, hb, hc⟩ := ih (n + field.length) (c + 1) (log ++ [field]) hck2
          refine ⟨fun h => ?_, fun h => ?_, ?_⟩
          · exact ha (by simpa using h)
          · exact hb (by simpa using h)
          · simp only [List.map_cons, List.sum_cons]
            simp at hc ⊢
            omega

theorem lineNumbererLoop_fail (k : Nat) :
    ∀ (lines : List (List Nat)) (lineno : Nat) (sup : Bool) (n c : Nat)
      (log : List (List Nat)), c ≤ k →
      ((lineNumbererLoop (failSink k) lines lineno sup (c, log) n).err = true →
          (lineNumbererLoop (failSink k) lines lineno sup (c, log) n).inner.1 = k + 1)
      ∧ ((lineNumbererLoop (failSink k) lines lineno sup (c, log) n).err = false →
          (lineNumbererLoop (failSink k) lines lineno sup (c, log) n).inner.1 ≤ k)
      ∧ (lineNumbererLoop (failSink k) lines lineno sup (c, log) n).n
          ≤ n + (lines.map List.length).sum := by
  intro lines
  induction lines with
  | nil =>
    intro lineno sup n c log hck
    refine ⟨fun h => ?_, fun _ => ?_, ?_⟩
    · simp [lineNumbererLoop] at h
    · simpa [lineNumbererLoop] using hck
    · simp [lineNumbererLoop]
  | cons line rest ih =>
    intro lineno sup n c log hck
    cases sup
    · rw [lineNumbererLoop_num]
      by_cases hc1 : c = k
      · subst hc1
        simp only [failSink_fail]
        exact ⟨fun _ => by simp, fun h => by simp at h, by simp⟩
      · simp only [failSink_ok k c log (fmtLineno (lineno + 1)) hc1]
        by_cases hc2 : c + 1 = k
        · rw [hc2, failSink_fail k (log ++ [fmtLineno (lineno + 1)]) line]
          refine ⟨fun _ => by simp [hc2], fun h => by simp at h, ?_⟩
          simp only [List.map_cons, List.sum_cons]
          simp
        · rw [failSink_ok k (c + 1) (log ++ [fmtLineno (lineno + 1)]) line hc2]
          have hck2 : c + 1 + 1 ≤ k := by omega
          obtain ⟨ha, hb, hc⟩ := ih (lineno + 1)
            (line.isEmpty || (line.getLastD 0 != 10)) (n + line.length) (c + 1 + 1)
            (log ++ [fmtLineno (lineno + 1)] ++ [line]) hck2
          refine ⟨fun h => ?_, fun h => ?_, ?_⟩
          · exact ha (by simpa using h)
          · exact hb (by simpa using h)
          · simp only [List.map_cons, List.sum_cons]
            simp at hc ⊢
            omega
    · rw [lineNumbererLoop_sup]
      by_cases hc1 : c = k
      · subst hc1
        simp only [failSink_fail]
        exact ⟨fun _ => by simp, fun h => by simp at h, by simp⟩
      · simp only [failSink_ok k c log line hc1]
        have hck2 : c + 1 ≤ k := by omega
        obtain ⟨ha, hb, hc⟩ := ih lineno (line.isEmpty || (line.getLastD 0 != 10))
          (n + line.length) (c + 1) (log ++ [line]) hck2
        refine ⟨fun h => ?_, fun h => ?_, ?_⟩
        · exact ha (by simpa using h)
        · exact hb (by simpa using h)
        · simp only [List.map_cons, List.sum_cons]
          simp at hc ⊢
          omega

theorem nonblankLoop_fail (k : Nat) :
    ∀ (lines : List (List Nat)) (lineno : Nat) (sup : Bool) (n c : Nat)
      (log : List (List Nat)), c ≤ k →
      ((nonblankLoop (failSink k) lines lineno sup (c, log) n).err = true →
          (nonblankLoop (failSink k) lines lineno sup (c, log) n).inner.1 = k + 1)
      ∧ ((nonblankLoop (failSink k) lines lineno sup (c, log) n).err = false →
          (nonblankLoop (failSink k) lines lineno sup (c, log) n).inner.1 ≤ k)
      ∧ (nonblankLoop (failSink k) lines lineno sup (c, log) n).n
          ≤ n + (lines.map List.length).sum := by
  intro lines
  induction lines with
  | nil =>
    intro lineno sup n c log hck
    refine ⟨fun h => ?_, fun _ => ?_, ?_⟩
    · simp [nonblankLoop] at h
    · simpa [nonblankLoop] using hck
    · simp [nonblankLoop]
  | cons line rest ih =>
    intro lineno sup n c log hck
    cases hb : (line.isEmpty || (line.headD 0 == 10))
    · cases sup
      · rw [nonblankLoop_num (failSink k) line rest lineno (c, log) n hb]
        by_cases hc1 : c = k
        · subst hc1
          simp only [failSink_fail]
          exact ⟨fun _ => by simp, fun h => by simp at h, by simp⟩
        · simp only [failSink_ok k c log (fmtLineno (lineno + 1)) hc1]
          by_cases hc2 : c + 1 = k
          · rw [hc2, failSink_fail k (log ++ [fmtLineno (lineno + 1)]) line]
            refine ⟨fun _ => by simp [hc2], fun h => by simp at h, ?_⟩
            simp only [List.map_cons, List.sum_cons]
            simp
          · rw [failSink_ok k (c + 1) (log ++ [fmtLineno (lineno + 1)]) line hc2]
            have hck2 : c + 1 + 1 ≤ k := by omega
            obtain ⟨ha, hb2, hc⟩ := ih (lineno + 1)
              (line.isEmpty || (line.getLastD 0 != 10)) (n + line.length) (c + 1 + 1)
              (log ++ [fmtLineno (lineno + 1)] ++ [line]) hck2
            refine ⟨fun h => ?_, fun h => ?_, ?_⟩
            · exact ha (by simpa using h)
            · exact hb2 (by simpa using h)
            · simp only [List.map_cons, List.sum_cons]
              simp at hc ⊢
              omega
      · rw [nonblankLoop_sup (failSink k) line rest lineno (c, log) n hb]
        by_cases hc1 : c = k
        · subst hc1
          simp only [failSink_fail]
          exact ⟨fun _ => by simp, fun h => by simp at h, by simp⟩
        · simp only [failSink_ok k c log line hc1]
          have hck2 : c + 1 ≤ k := by omega
          obtain ⟨ha, hb2, hc⟩ := ih lineno (line.isEmpty || (line.getLastD 0 != 10))
            (n + line.length) (c + 1) (log ++ [line]) hck2
          refine ⟨fun h => ?_, fun h => ?_, ?_⟩
          · exact ha (by simpa using h)
          · exact hb2 (by simpa using h)
          · simp only [List.map_cons, List.sum_cons]
            simp at hc ⊢
            omega
    · rw [nonblankLoop_blank (failSink k) line rest lineno sup (c, log) n hb]
      by_cases hc1 : c = k
      · subst hc1
        simp only [failSink_fail]
        exact ⟨fun _ => by simp, fun h => by simp at h, by simp⟩
      · simp only [failSink_ok k c log line hc1]
        have hck2 : c + 1 ≤ k := by omega
        obtain ⟨ha, hb2, hc⟩ := ih lineno (line.isEmpty || (line.getLastD 0 != 10))
          (n + line.length) (c + 1) (log ++ [line]) hck2
        refine ⟨fun h => ?_, fun h => ?_, ?_⟩
        · exact ha (by simpa using h)
        · exact hb2 (by simpa using h)
        · simp only [List.map_cons, List.sum_cons]
          simp at hc ⊢
          omega

theorem blankSqueezerLoop_fail (k : Nat) :
    ∀ (lines : List (List Nat)) (lwb : Bool) (n c : Nat)
      (log : List (List Nat)), c ≤ k →
      ((blankSqueezerLoop (failSink k) lines lwb (c, log) n).err = true →
          (blankSqueezerLoop (failSink k) lines lwb (c, log) n).inner.1 = k + 1)
      ∧ ((blankSqueezerLoop (failSink k) lines lwb (c, log) n).err = false →
          (blankSqueezerLoop (failSink k) lines lwb (c, log) n).inner.1 ≤ k)
      ∧ (blankSqueezerLoop (failSink k) lines lwb (c, log) n).n
          ≤ n + (lines.map List.length).sum := by
  intro lines
  induction lines with
  | nil =>
    intro lwb n c log hck
    refine ⟨fun h => ?_, fun _ => ?_, ?_⟩
    · simp [blankSqueezerLoop] at h
    · simpa [blankSqueezerLoop] using hck
    · simp [blankSqueezerLoop]
  | cons line rest ih =>
    intro lwb n c log hck
    by_cases hne : line = []
    · subst hne
      rw [blankSqueezerLoop_skip]
      obtain ⟨ha, hb, hc⟩ := ih lwb n c log hck
      exact ⟨ha, hb, le_trans hc (by simp)⟩
    · have hpos : 0 < line.length := List.length_pos.mpr hne
      by_cases hlast : line.getLastD 0 = 10
      · by_cases hhead : line.headD 0 = 10
        · cases lwb
          · rw [blankSqueezerLoop_blank_write (failSink k) line rest (c, log) n hne hlast hhead]
            by_cases hc1 : c = k
            · subst hc1
              simp only [failSink_fail]
              exact ⟨fun _ => by simp, fun h => by simp at h, by simp⟩
            · simp only [failSink_ok k c log line hc1]
              have hck2 : c + 1 ≤ k := by omega
              obtain ⟨ha, hb, hc⟩ := ih true (n + line.length) (c + 1) (log ++ [line]) hck2
              refine ⟨fun h => ?_, fun h => ?_, ?_⟩
              · exact ha (by simpa using h)
              · exact hb (by simpa using h)
              · simp only [List.map_cons, List.sum_cons]
                simp at hc ⊢
                omega
          · rw [blankSqueezerLoop_blank_skip (failSink k) line rest (c, log) n hne hlast hhead]
            obtain ⟨ha, hb, hc⟩ := ih true (n + 1) c log hck
            refine ⟨ha, hb, ?_⟩
            simp only [List.map_cons, List.sum_cons]
            omega
        · rw [blankSqueezerLoop_nonblank (failSink k) line rest lwb (c, log) n hne hlast hhead]
          by_cases hc1 : c = k
          · subst hc1
            simp only [failSink_fail]
            exact ⟨fun _ => by simp, fun h => by simp at h, by simp⟩
          · simp only [failSink_ok k c log line hc1]
            have hck2 : c + 1 ≤ k := by omega
            obtain ⟨ha, hb, hc⟩ := ih false (n + line.length) (c + 1) (log ++ [line]) hck2
            refine ⟨fun h => ?_, fun h => ?_, ?_⟩
            · exact ha (by simpa using h)
            · exact hb (by simpa using h)
            · simp only [List.map_cons, List.sum_cons]
              simp at hc ⊢
              omega
      · rw [blankSqueezerLoop_mid (failSink k) line rest lwb (c, log) n hne hlast]
        by_cases hc1 : c = k
        · subst hc1
          simp only [failSink_fail]
          exact ⟨fun _ => by simp, fun h => by simp at h, by simp⟩
        · simp only [failSink_ok k c log line hc1]
          have hck2 : c + 1 ≤ k := by omega
          obtain ⟨ha, hb, hc⟩ := ih lwb (n + line.length) (c + 1) (log ++ [line]) hck2
          refine ⟨fun h => ?_, fun h => ?_, ?_⟩
          · exact ha (by simpa using h)
          · exact hb (by simpa using h)
          · simp only [List.map_cons, List.sum_cons]
            simp at hc ⊢
            omega


theorem nonprintLoop_fail (k : Nat) :
    ∀ (fields : List (List Nat)) (n c : Nat) (log : List (List Nat)), c ≤ k →
      ((nonprintLoop (failSink k) fields (c, log) n).err = true →
          (nonprintLoop (failSink k) fields (c, log) n).inner.1 = k + 1)
      ∧ ((nonprintLoop (failSink k) fields (c, log) n).err = false →
          (nonprintLoop (failSink k) fields (c, log) n).inner.1 ≤ k)
      ∧ (nonprintLoop (failSink k) fields (c, log) n).n
          ≤ n + (fields.map List.length).sum := by
  intro fields
  induction fields with
  | nil =>
    intro n c log hck
    refine ⟨fun h => ?_, fun _ => ?_, ?_⟩
    · simp [nonprintLoop] at h
    · simpa [nonprintLoop] using hck
    · simp [nonprintLoop]
  | cons field fields ih =>
    intro n c log hck
    by_cases hne : field = []
    · subst hne
      rw [nonprintLoop_skip]
      obtain ⟨ha, hb, hc⟩ := ih n c log hck
      exact ⟨ha, hb, le_trans hc (by simp)⟩
    · have hpos : 0 < field.length := List.length_pos.mpr hne
      by_cases h1 : field.getLastD 0 < 32 ∧ field.getLastD 0 ≠ 10 ∧ field.getLastD 0 ≠ 9
      · rw [nonprintLoop_ctrl (failSink k) field fields (c, log) n hne h1]
        by_cases hc1 : c = k
        · subst hc1
          simp only [failSink_fail]
          exact ⟨fun _ => by simp, fun h => by simp at h, by simp⟩
        · simp only [failSink_ok k c log field.dropLast hc1]
          by_cases hc2 : c + 1 = k
          · rw [hc2, failSink_fail k (log ++ [field.dropLast]) ([94, field.getLastD 0 + 64])]
            refine ⟨fun _ => by simp [hc2], fun h => by simp at h, ?_⟩
            simp only [List.map_cons, List.sum_cons]
            have hd : field.dropLast.length = field.length - 1 := List.length_dropLast field
            simp
            omega
          · rw [failSink_ok k (c + 1) (log ++ [field.dropLast]) ([94, field.getLastD 0 + 64]) hc2]
            have hck2 : c + 1 + 1 ≤ k := by omega
            obtain ⟨ha, hb, hc⟩ := ih (n + field.dropLast.length + 1) (c + 1 + 1)
              (log ++ [field.dropLast] ++ [[94, field.getLastD 0 + 64]]) hck2
            have hd : field.dropLast.length = field.length - 1 := List.length_dropLast field
            refine ⟨fun h => ?_, fun h => ?_, ?_⟩
            · exact ha (by simpa using h)
            · exact hb (by simpa using h)
            · simp only [List.map_cons, List.sum_cons]
              simp at hc ⊢
              omega
      · by_cases h2 : field.getLastD 0 < 127
        · rw [nonprintLoop_plain (failSink k) field fields (c, log) n hne h1 h2]
          by_cases hc1 : c = k
          · subst hc1
            simp only [failSink_fail]
            exact ⟨fun _ => by simp, fun h => by simp at h, by simp⟩
          · simp only [failSink_ok k c log field hc1]
            have hck2 : c + 1 ≤ k := by omega
            obtain ⟨ha, hb, hc⟩ := ih (n + field.length) (c + 1) (log ++ [field]) hck2
            refine ⟨fun h => ?_, fun h => ?_, ?_⟩
            · exact ha (by simpa using h)
            · exact hb (by simpa using h)
            · simp only [List.map_cons, List.sum_cons]
              simp at hc ⊢
              omega
        · by_cases h3 : field.getLastD 0 = 127
          · rw [nonprintLoop_del (failSink k) field fields (c, log) n hne h3]
            by_cases hc1 : c = k
            · subst hc1
              simp only [failSink_fail]
              exact ⟨fun _ => by simp, fun h => by simp at h, by simp⟩
            · simp only [failSink_ok k c log field.dropLast hc1]
              by_cases hc2 : c + 1 = k
              · rw [hc2, failSink_fail k (log ++ [field.dropLast]) ([94, 63])]
                refine ⟨fun _ => by simp [hc2], fun h => by simp at h, ?_⟩
                simp only [List.map_cons, List.sum_cons]
                have hd : field.dropLast.length = field.length - 1 := List.length_dropLast field
                simp
                omega
              · rw [failSink_ok k (c + 1) (log ++ [field.dropLast]) ([94, 63]) hc2]
                have hck2 : c + 1 + 1 ≤ k := by omega
                obtain ⟨ha, hb, hc⟩ := ih (n + field.dropLast.length + 1) (c + 1 + 1)
                  (log ++ [field.dropLast] ++ [[94, 63]]) hck2
                have hd : field.dropLast.length = field.length - 1 := List.length_dropLast field
                refine ⟨fun h => ?_, fun h => ?_, ?_⟩
                · exact ha (by simpa using h)
                · exact hb (by simpa using h)
                · simp only [List.map_cons, List.sum_cons]
                  simp at hc ⊢
                  omega
          · by_cases h4 : field.getLastD 0 < 128 + 32
            · rw [nonprintLoop_meta (failSink k) field fields (c, log) n hne (by omega) h4]
              by_cases hc1 : c = k
              · subst hc1
                simp only [failSink_fail]
                exact ⟨fun _ => by simp, fun h => by simp at h, by simp⟩
              · simp only [failSink_ok k c log field.dropLast hc1]
                by_cases hc2 : c + 1 = k
                · rw [hc2, failSink_fail k (log ++ [field.dropLast]) ([77, 45, 94, field.getLastD 0 - 128 + 64])]
                  refine ⟨fun _ => by simp [hc2], fun h => by simp at h, ?_⟩
                  simp only [List.map_cons, List.sum_cons]
                  have hd : field.dropLast.length = field.length - 1 := List.length_dropLast field
                  simp
                  omega
                · rw [failSink_ok k (c + 1) (log ++ [field.dropLast]) ([77, 45, 94, field.getLastD 0 - 128 + 64]) hc2]
                  have hck2 : c + 1 + 1 ≤ k := by omega
                  obtain ⟨ha, hb, hc⟩ := ih (n + field.dropLast.length + 1) (c + 1 + 1)
                    (log ++ [field.dropLast] ++ [[77, 45, 94, field.getLastD 0 - 128 + 64]]) hck2
                  have hd : field.dropLast.length = field.length - 1 := List.length_dropLast field
                  refine ⟨fun h => ?_, fun h => ?_, ?_⟩
                  · exact ha (by simpa using h)
                  · exact hb (by simpa using h)
                  · simp only [List.map_cons, List.sum_cons]
                    simp at hc ⊢
                    omega
            · by_cases h5 : field.getLastD 0 = 255
              · rw [nonprintLoop_maxmeta (failSink k) field fields (c, log) n hne h5]
                by_cases hc1 : c = k
                · subst hc1
                  simp only [failSink_fail]
                  exact ⟨fun _ => by simp, fun h => by simp at h, by simp⟩
                · simp only [failSink_ok k c log field.dropLast hc1]
                  by_cases hc2 : c + 1 = k
                  · rw [hc2, failSink_fail k (log ++ [field.dropLast]) ([77, 45, 94, 63])]
                    refine ⟨fun _ => by simp [hc2], fun h => by simp at h, ?_⟩
                    simp only [List.map_cons, List.sum_cons]
                    have hd : field.dropLast.length = field.length - 1 := List.length_dropLast field
                    simp
                    omega
                  · rw [failSink_ok k (c + 1) (log ++ [field.dropLast]) ([77, 45, 94, 63]) hc2]
                    have hck2 : c + 1 + 1 ≤ k := by omega
                    obtain ⟨ha, hb, hc⟩ := ih (n + field.dropLast.length + 1) (c + 1 + 1)
                      (log ++ [field.dropLast] ++ [[77, 45, 94, 63]]) hck2
                    have hd : field.dropLast.length = field.length - 1 := List.length_dropLast field
                    refine ⟨fun h => ?_, fun h => ?_, ?_⟩
                    · exact ha (by simpa using h)
                    · exact hb (by simpa using h)
                    · simp only [List.map_cons, List.sum_cons]
                      simp at hc ⊢
                      omega
              · rw [nonprintLoop_himeta (failSink k) field fields (c, log) n hne (by omega) h5]
                by_cases hc1 : c = k
                · subst hc1
                  simp only [failSink_fail]
                  exact ⟨fun _ => by simp, fun h => by simp at h, by simp⟩
                · simp only [failSink_ok k c log field.dropLast hc1]
                  by_cases hc2 : c + 1 = k
                  · rw [hc2, failSink_fail k (log ++ [field.dropLast]) ([77, 45, field.getLastD 0 - 128])]
                    refine ⟨fun _ => by simp [hc2], fun h => by simp at h, ?_⟩
                    simp only [List.map_cons, List.sum_cons]
                    have hd : field.dropLast.length = field.length - 1 := List.length_dropLast field
                    simp
                    omega
                  · rw [failSink_ok k (c + 1) (log ++ [field.dropLast]) ([77, 45, field.getLastD 0 - 128]) hc2]
                    have hck2 : c + 1 + 1 ≤ k := by omega
                    obtain ⟨ha, hb, hc⟩ := ih (n + field.dropLast.length + 1) (c + 1 + 1)
                      (log ++ [field.dropLast] ++ [[77, 45, field.getLastD 0 - 128]]) hck2
                    have hd : field.dropLast.length = field.length - 1 := List.length_dropLast field
                    refine ⟨fun h => ?_, fun h => ?_, ?_⟩
                    · exact ha (by simpa using h)
                    · exact hb (by simpa using h)
                    · simp only [List.map_cons, List.sum_cons]
                      simp at hc ⊢
                      omega

/-! ### Claim theorems -/

/-- Claim C10: a write call with an empty chunk accepts 0 bytes, reports no
failure, forwards nothing to the inner sink, and leaves every piece of
per-stage state (line counter, suppression flag, previous-line-blank flag)
unchanged, for all five stages. -/
theorem empty_chunk_is_noop {σ : Type} (inner : SinkFn σ) (sep : Nat)
    (rep : List Nat) (lineno : Nat) (sup lwb : Bool) (s : σ) :
    byteReplacerWrite inner sep rep s [] = ⟨0, (), s, false⟩
    ∧ lineNumbererWrite inner lineno sup s [] = ⟨0, (lineno, sup), s, false⟩
    ∧ nonblankWrite inner lineno sup s [] = ⟨0, (lineno, sup), s, false⟩
    ∧ blankSqueezerWrite inner lwb s [] = ⟨0, lwb, s, false⟩
    ∧ nonprintWrite inner s [] = ⟨0, (), s, false⟩ :=
  ⟨rfl, rfl, rfl, rfl, rfl⟩

/-- Claim C7: for both predicates, field splitting yields nonempty spans whose
concatenation is exactly the input, every span but possibly the last ends
on a predicate-matching byte, no earlier byte of a span matches, a
match-free nonempty chunk yields one span equal to the whole input, and the
empty chunk yields no spans. -/
theorem field_splitting_partition (data data2 data3 : List Nat) (sep : Nat)
    (h2 : ∀ b ∈ data2, b ≠ sep) (h3 : data2 ≠ [])
    (h4 : ∀ b ∈ data3, 32 ≤ b ∧ b < 127) (h5 : data3 ≠ []) :
    (splitOnByte data sep).flatten = data
    ∧ (∀ f ∈ splitOnByte data sep, f ≠ [])
    ∧ (∀ f ∈ (splitOnByte data sep).dropLast, f.getLastD 0 = sep)
    ∧ (∀ f ∈ splitOnByte data sep, ∀ b ∈ f.dropLast, b ≠ sep)
    ∧ splitOnByte data2 sep = [data2]
    ∧ splitOnByte [] sep = []
    ∧ (splitOnNonprint data).flatten = data
    ∧ (∀ f ∈ splitOnNonprint data, f ≠ [])
    ∧ (∀ f ∈ (splitOnNonprint data).dropLast,
        f.getLastD 0 < 32 ∨ 127 ≤ f.getLastD 0)
    ∧ (∀ f ∈ splitOnNonprint data, ∀ b ∈ f.dropLast, 32 ≤ b ∧ b < 127)
    ∧ splitOnNonprint data3 = [data3]
    ∧ splitOnNonprint [] = [] := by
  refine ⟨splitOnPred_flatten _ data, splitOnPred_ne_nil _ data, ?_, ?_, ?_, rfl,
    splitOnPred_flatten _ data, splitOnPred_ne_nil _ data, ?_, ?_, ?_, rfl⟩
  · intro f hf
    have h := splitOnPred_inner_ends (fun b => b == sep) data f hf
    simpa using h
  · intro f hf b hb
    have h := splitOnPred_dropLast_pred (fun b => b == sep) data f hf b hb
    simpa using h
  · exact splitOnPred_no_match _ data2 (fun b hb => by simpa using h2 b hb) h3
  · intro f hf
    have h := splitOnPred_inner_ends
      (fun b => decide (b < 32) || decide (127 ≤ b)) data f hf
    simpa using h
  · intro f hf b hb
    have h := splitOnPred_dropLast_pred
      (fun b => decide (b < 32) || decide (127 ≤ b)) data f hf b hb
    simp only [Bool.or_eq_false_iff, decide_eq_false_iff_not] at h
    omega
  · refine splitOnPred_no_match _ data3 (fun b hb => ?_) h5
    obtain ⟨hb1, hb2⟩ := h4 b hb
    simp only [Bool.or_eq_false_iff, decide_eq_false_iff_not]
    omega

theorem field_splitting_partition_witness :
    (splitOnByte [97, 10, 98] 10).flatten = [97, 10, 98]
    ∧ splitOnByte [97, 98] 10 = [[97, 98]]
    ∧ splitOnNonprint [65] = [[65]] := by
  obtain ⟨hA, _, _, _, hB, _, _, _, _, _, hC, _⟩ :=
    field_splitting_partition [97, 10, 98] [97, 98] [65] 10
      (by decide) (by decide) (by decide) (by decide)
  exact ⟨hA, hB, hC⟩

/-- Claim C3: on a write call during which no inner-sink write fails (the inner
sink accepts every chunk in full), every stage returns an accepted count
equal to the byte length of the input chunk, regardless of how many bytes
were physically forwarded. -/
theorem stage_accepts_input_length {σ : Type} (inner : SinkFn σ)
    (hok : SinkOk inner) (data : List Nat) (sep : Nat) (rep : List Nat)
    (lineno : Nat) (sup lwb : Bool) (s : σ) :
    (byteReplacerWrite inner sep rep s data).n = data.length
    ∧ (lineNumbererWrite inner lineno sup s data).n = data.length
    ∧ (nonblankWrite inner lineno sup s data).n = data.length
    ∧ (blankSqueezerWrite inner lwb s data).n = data.length
    ∧ (nonprintWrite inner s data).n = data.length := by
  have hsum1 : ((splitOnByte data sep).map List.length).sum = data.length :=
    splitOnPred_sum_length _ data
  have hsum2 : ((splitLines data).map List.length).sum = data.length :=
    splitOnPred_sum_length _ data
  have hsum3 : ((splitOnNonprint data).map List.length).sum = data.length :=
    splitOnPred_sum_length _ data
  have hsp : ∀ f ∈ splitLines data, ∀ b ∈ f.dropLast, b ≠ 10 := by
    intro f hf b hb
    have h := splitOnPred_dropLast_pred (fun b => b == 10) data f hf b hb
    simpa using h
  refine ⟨?_, ?_, ?_, ?_, ?_⟩
  · rw [byteReplacerWrite, byteReplacerLoop_count hok, hsum1]; omega
  · rw [lineNumbererWrite, lineNumbererLoop_count hok, hsum2]; omega
  · rw [nonblankWrite, nonblankLoop_count hok, hsum2]; omega
  · rw [blankSqueezerWrite, blankSqueezerLoop_count hok _ hsp, hsum2]; omega
  · rw [nonprintWrite, nonprintLoop_count hok, hsum3]; omega

theorem stage_accepts_input_length_witness :
    (byteReplacerWrite okSink 10 [36, 10] [] [97, 10]).n = 2
    ∧ (lineNumbererWrite okSink 0 false [] [97, 10]).n = 2
    ∧ (nonblankWrite okSink 0 false [] [97, 10]).n = 2
    ∧ (blankSqueezerWrite okSink false [] [97, 10]).n = 2
    ∧ (nonprintWrite okSink [] [97, 10]).n = 2 :=
  stage_accepts_input_length okSink okSink_ok [97, 10] 10 [36, 10] 0 false false []

/-- Claim C4: the non-printable escaper maps each input byte independently of all
other bytes and of prior calls, following exactly the claimed table: the
bytes it forwards are the concatenation of `specEscByte` over the chunk,
with `specEscByte` the spec table (so 0x01 becomes caret-A, 0x7F becomes
caret-question, 0x81 becomes M-caret-A, 0xFF becomes M-caret-question, and
0xA0 becomes M-dash-space). -/
theorem nonprint_escapes_bytewise (log : List (List Nat)) (data : List Nat)
    (_hbytes : ∀ b ∈ data, b < 256) :
    (nonprintWrite okSink log data).inner.flatten
      = log.flatten ++ (data.map specEscByte).flatten
    ∧ (nonprintWrite okSink log data).err = false
    ∧ specEscByte 1 = [94, 65] ∧ specEscByte 127 = [94, 63]
    ∧ specEscByte 129 = [77, 45, 94, 65] ∧ specEscByte 255 = [77, 45, 94, 63]
    ∧ specEscByte 160 = [77, 45, 32] := by
  have hspan : ∀ f ∈ splitOnNonprint data, ∀ b ∈ f.dropLast, 32 ≤ b ∧ b < 127 := by
    intro f hf b hb
    have h := splitOnPred_dropLast_pred
      (fun b => decide (b < 32) || decide (127 ≤ b)) data f hf b hb
    simp only [Bool.or_eq_false_iff, decide_eq_false_iff_not] at h
    omega
  obtain ⟨ha, hb⟩ := nonprintLoop_out (splitOnNonprint data) hspan log 0
  have hflat : (splitOnNonprint data).flatten = data := splitOnPred_flatten _ data
  refine ⟨?_, hb, by decide, by decide, by decide, by decide, by decide⟩
  rw [nonprintWrite, ha, hflat]

theorem nonprint_escapes_bytewise_witness :
    (nonprintWrite okSink [] [1, 127, 129, 255, 160, 65, 10, 9]).inner.flatten
      = ([] : List (List Nat)).flatten
        ++ ([1, 127, 129, 255, 160, 65, 10, 9].map specEscByte).flatten
    ∧ (nonprintWrite okSink [] [1, 127, 129, 255, 160, 65, 10, 9]).err = false
    ∧ specEscByte 1 = [94, 65] ∧ specEscByte 127 = [94, 63]
    ∧ specEscByte 129 = [77, 45, 94, 65] ∧ specEscByte 255 = [77, 45, 94, 63]
    ∧ specEscByte 160 = [77, 45, 32] :=
  nonprint_escapes_bytewise [] [1, 127, 129, 255, 160, 65, 10, 9] (by decide)

/-- Claim C5: in the nonblank numberer a span that is exactly one newline is
forwarded without a number prefix and without incrementing the counter, and
the forced suppression applies to that span only: the loop continues with
the suppression flag off and the counter unchanged.  On the example input
of the claim the output is as stated. -/
theorem nonblank_blank_span_unnumbered :
    (∀ (rest : List (List Nat)) (lineno : Nat) (sup : Bool)
        (log : List (List Nat)) (n : Nat),
      nonblankLoop okSink ([10] :: rest) lineno sup log n
        = nonblankLoop okSink rest lineno false (log ++ [[10]]) (n + 1))
    ∧ (nonblankWrite okSink 0 false [] [97, 10, 10, 98, 10]).inner.flatten
      = [32, 32, 32, 32, 32, 49, 9, 97, 10, 10, 32, 32, 32, 32, 32, 50, 9, 98, 10] :=
  ⟨fun _ _ _ _ _ => rfl, by decide⟩

/-- Claim C6 (amended): for every counter value `n` with `0 < n < 1000000` the
emitted prefix is exactly 7 bytes, a right-justified block of 6 characters
(spaces then the decimal digits of `n`) followed by one tab; the digits are
ASCII decimals that decode back to `n`.  For `n ≥ 1000000` the prefix is
longer (the decimal rendering is not truncated to 6 characters). -/
theorem line_number_prefix_shape (n : Nat) (_h0 : 0 < n) (h6 : n < 1000000) :
    (fmtLineno n).length = 7
    ∧ (fmtLineno n).getLastD 0 = 9
    ∧ (fmtLineno n).dropLast
      = List.replicate (6 - (decimalDigits n).length) 32 ++ decimalDigits n
    ∧ (∀ d ∈ decimalDigits n, 48 ≤ d ∧ d ≤ 57)
    ∧ (decimalDigits n).foldl (fun a d => a * 10 + (d - 48)) 0 = n := by
  have hlen := decimalDigits_length_le6 n h6
  refine ⟨?_, ?_, ?_, decimalDigits_mem n, decimalDigits_foldl n⟩
  · rw [fmtLineno]
    simp only [List.length_append, List.length_replicate, List.length_cons,
      List.length_nil]
    omega
  · rw [fmtLineno]
    exact List.getLastD_concat _ _ _
  · rw [fmtLineno, List.dropLast_concat]

theorem line_number_prefix_shape_witness :
    (fmtLineno 3).length = 7
    ∧ (fmtLineno 3).getLastD 0 = 9
    ∧ (fmtLineno 3).dropLast
      = List.replicate (6 - (decimalDigits 3).length) 32 ++ decimalDigits 3
    ∧ (∀ d ∈ decimalDigits 3, 48 ≤ d ∧ d ≤ 57)
    ∧ (decimalDigits 3).foldl (fun a d => a * 10 + (d - 48)) 0 = 3 :=
  line_number_prefix_shape 3 (by decide) (by decide)

theorem lineNumFeed_adds : ∀ (k m : Nat), lineNumFeed k (m, false) = (m + k, false) := by
  intro k
  induction k with
  | zero => intro m; rfl
  | succ k ih =>
    intro m
    have hstep : lineNumFeed (k + 1) (m, false) = lineNumFeed k (m + 1, false) := rfl
    rw [hstep, ih]
    have harith : m + 1 + k = m + (k + 1) := by omega
    rw [harith]

/-- Claim C6 counterexample: the counter value 1000000 is reached (after one
million single-line write calls), and there the emitted prefix is 8 bytes,
not the claimed 6-character counter plus one tab (7 bytes). -/
theorem line_number_prefix_shape_cx :
    (lineNumFeed 1000000 (0, false)).1 = 1000000
    ∧ (fmtLineno 1000000).length ≠ 7 := by
  constructor
  · simp [lineNumFeed_adds 1000000 0]
  · decide

/-- Claim C1: the claim fails on the blank-line squeezer: fed the same byte
sequence newline-x-newline whole versus split into three chunks (starting
from the same fresh state, over the never-failing logging sink), the stage
forwards different bytes — the whole call forwards all three bytes, the
chunked calls drop the final newline. -/
theorem squeezer_chunk_boundary_dependence :
    [[10], [120], [10]].flatten = [[10, 120, 10]].flatten
    ∧ (squeezeFeedAux [[10, 120, 10]] false []).2.flatten = [10, 120, 10]
    ∧ (squeezeFeedAux [[10], [120], [10]] false []).2.flatten = [10, 120] :=
  ⟨by decide, by decide, by decide⟩

/-- Claim C2: the claim fails on the code: a write call ending in a span not
terminated by a newline writes that span verbatim (first conjunct) but does
NOT clear the previous-line-was-blank flag — after writing newline then x,
the flag is still true, where the claim requires false. -/
theorem squeezer_trailing_span_leaves_flag :
    (squeezeFeedAux [[10], [120]] false []).2.flatten = [10, 120]
    ∧ (squeezeFeedAux [[10], [120]] false []).1 = true :=
  ⟨by decide, by decide⟩

/-- Claim C9: for every stage, if an inner-sink write fails during a write call
(the instrumented sink fails at call index `k`, and the run reaches more
than `k` inner calls), the call returns the failure, makes no inner call
after the failing one (exactly `k + 1` calls happen), and the accepted
count it returns never exceeds the input chunk length — no retry, no
rollback. -/
theorem stage_stops_on_inner_failure (k : Nat) (data : List Nat) (sep : Nat)
    (rep : List Nat) (lineno : Nat) (sup lwb : Bool) (log : List (List Nat))
    (h1 : k < (byteReplacerWrite (failSink k) sep rep (0, log) data).inner.1)
    (h2 : k < (lineNumbererWrite (failSink k) lineno sup (0, log) data).inner.1)
    (h3 : k < (nonblankWrite (failSink k) lineno sup (0, log) data).inner.1)
    (h4 : k < (blankSqueezerWrite (failSink k) lwb (0, log) data).inner.1)
    (h5 : k < (nonprintWrite (failSink k) (0, log) data).inner.1) :
    ((byteReplacerWrite (failSink k) sep rep (0, log) data).err = true
      ∧ (byteReplacerWrite (failSink k) sep rep (0, log) data).inner.1 = k + 1
      ∧ (byteReplacerWrite (failSink k) sep rep (0, log) data).n ≤ data.length)
    ∧ ((lineNumbererWrite (failSink k) lineno sup (0, log) data).err = true
      ∧ (lineNumbererWrite (failSink k) lineno sup (0, log) data).inner.1 = k + 1
      ∧ (lineNumbererWrite (failSink k) lineno sup (0, log) data).n ≤ data.length)
    ∧ ((nonblankWrite (failSink k) lineno sup (0, log) data).err = true
      ∧ (nonblankWrite (failSink k) lineno sup (0, log) data).inner.1 = k + 1
      ∧ (nonblankWrite (failSink k) lineno sup (0, log) data).n ≤ data.length)
    ∧ ((blankSqueezerWrite (failSink k) lwb (0, log) data).err = true
      ∧ (blankSqueezerWrite (failSink k) lwb (0, log) data).inner.1 = k + 1
      ∧ (blankSqueezerWrite (failSink k) lwb (0, log) data).n ≤ data.length)
    ∧ ((nonprintWrite (failSink k) (0, log) data).err = true
      ∧ (nonprintWrite (failSink k) (0, log) data).inner.1 = k + 1
      ∧ (nonprintWrite (failSink k) (0, log) data).n ≤ data.length) := by
  have hsum1 : ((splitOnByte data sep).map List.length).sum = data.length :=
    splitOnPred_sum_length _ data
  have hsum2 : ((splitLines data).map List.length).sum = data.length :=
    splitOnPred_sum_length _ data
  have hsum3 : ((splitOnNonprint data).map List.length).sum = data.length :=
    splitOnPred_sum_length _ data
  refine ⟨?_, ?_, ?_, ?_, ?_⟩
  · obtain ⟨ha, hb, hc⟩ :=
      byteReplacerLoop_fail k sep rep (splitOnByte data sep) 0 0 log (Nat.zero_le k)
    cases herr : (byteReplacerWrite (failSink k) sep rep (0, log) data).err
    · exact absurd h1 (Nat.not_lt.mpr (hb herr))
    · refine ⟨rfl, ha herr, ?_⟩
      have h := hc
      rw [hsum1] at h
      simpa using h
  · obtain ⟨ha, hb, hc⟩ :=
      lineNumbererLoop_fail k (splitLines data) lineno sup 0 0 log (Nat.zero_le k)
    cases herr : (lineNumbererWrite (failSink k) lineno sup (0, log) data).err
    · exact absurd h2 (Nat.not_lt.mpr (hb herr))
    · refine ⟨rfl, ha herr, ?_⟩
      have h := hc
      rw [hsum2] at h
      simpa using h
  · obtain ⟨ha, hb, hc⟩ :=
      nonblankLoop_fail k (splitLines data) lineno sup 0 0 log (Nat.zero_le k)
    cases herr : (nonblankWrite (failSink k) lineno sup (0, log) data).err
    · exact absurd h3 (Nat.not_lt.mpr (hb herr))
    · refine ⟨rfl, ha herr, ?_⟩
      have h := hc
      rw [hsum2] at h
      simpa using h
  · obtain ⟨ha, hb, hc⟩ :=
      blankSqueezerLoop_fail k (splitLines data) lwb 0 0 log (Nat.zero_le k)
    cases herr : (blankSqueezerWrite (failSink k) lwb (0, log) data).err
    · exact absurd h4 (Nat.not_lt.mpr (hb herr))
    · refine ⟨rfl, ha herr, ?_⟩
      have h := hc
      rw [hsum2] at h
      simpa using h
  · obtain ⟨ha, hb, hc⟩ :=
      nonprintLoop_fail k (splitOnNonprint data) 0 0 log (Nat.zero_le k)
    cases herr : (nonprintWrite (failSink k) (0, log) data).err
    · exact absurd h5 (Nat.not_lt.mpr (hb herr))
    · refine ⟨rfl, ha herr, ?_⟩
      have h := hc
      rw [hsum3] at h
      simpa using h

theorem stage_stops_on_inner_failure_witness :
    ((byteReplacerWrite (failSink 0) 10 [36, 10] (0, []) [10]).err = true
      ∧ (byteReplacerWrite (failSink 0) 10 [36, 10] (0, []) [10]).inner.1 = 0 + 1
      ∧ (byteReplacerWrite (failSink 0) 10 [36, 10] (0, []) [10]).n ≤ [10].length)
    ∧ ((lineNumbererWrite (failSink 0) 0 false (0, []) [10]).err = true
      ∧ (lineNumbererWrite (failSink 0) 0 false (0, []) [10]).inner.1 = 0 + 1
      ∧ (lineNumbererWrite (failSink 0) 0 false (0, []) [10]).n ≤ [10].length)
    ∧ ((nonblankWrite (failSink 0) 0 false (0, []) [10]).err = true
      ∧ (nonblankWrite (failSink 0) 0 false (0, []) [10]).inner.1 = 0 + 1
      ∧ (nonblankWrite (failSink 0) 0 false (0, []) [10]).n ≤ [10].length)
    ∧ ((blankSqueezerWrite (failSink 0) false (0, []) [10]).err = true
      ∧ (blankSqueezerWrite (failSink 0) false (0, []) [10]).inner.1 = 0 + 1
      ∧ (blankSqueezerWrite (failSink 0) false (0, []) [10]).n ≤ [10].length)
    ∧ ((nonprintWrite (failSink 0) (0, []) [10]).err = true
      ∧ (nonprintWrite (failSink 0) (0, []) [10]).inner.1 = 0 + 1
      ∧ (nonprintWrite (failSink 0) (0, []) [10]).n ≤ [10].length) :=
  stage_stops_on_inner_failure 0 [10] 10 [36, 10] 0 false false []
    (by decide) (by decide) (by decide) (by decide) (by decide)

/-- Claim C8 (amended): the chain built in `main` wraps the final sink with the
enabled stages so that, read outer-to-inner, the order is tab escaper,
non-printable escaper, blank squeezer, numberer (nonblank overriding
plain), end-of-line marker — the reverse reading of the claimed order.
With all five stages enabled, a written chunk is transformed in that
nesting, as the chain output on the chunk tab-newline shows. -/
theorem chain_wrap_order (f : Flags) :
    buildOrder f
      = (if f.showTabs then [StageDesc.tabs] else [])
        ++ (if f.showNonprinting then [StageDesc.nonprint] else [])
        ++ (if f.squeezeBlank then [StageDesc.squeeze] else [])
        ++ (if f.numberNonblank then [StageDesc.numNonblank]
            else if f.number then [StageDesc.numPlain] else [])
        ++ (if f.showEnds then [StageDesc.eol] else [])
    ∧ (chainWrite (buildOrder ⟨true, false, true, true, true, true⟩)
        (freshStates (buildOrder ⟨true, false, true, true, true, true⟩), [])
        [9, 10]).2.1.2
      = [32, 32, 32, 32, 32, 49, 9, 94, 73, 36, 10] := by
  obtain ⟨e, nb, num, sq, v, t⟩ := f
  refine ⟨?_, by decide⟩
  cases e <;> cases nb <;> cases num <;> cases sq <;> cases v <;> cases t <;> rfl

/-- Claim C8 counterexample: with show-ends, number, squeeze-blank,
show-nonprinting and show-tabs all enabled, the chain built by `main` is
not the claimed outer-to-inner nesting end-of-line marker, numberer,
squeezer, non-printable escaper, tab escaper; moreover that nesting is
semantically different — on the chunk tab-newline the two chains deliver
different bytes to the final sink. -/
theorem chain_wrap_order_cx :
    buildOrder ⟨true, false, true, true, true, true⟩
      ≠ [StageDesc.eol, StageDesc.numPlain, StageDesc.squeeze,
         StageDesc.nonprint, StageDesc.tabs]
    ∧ (chainWrite [StageDesc.eol, StageDesc.numPlain, StageDesc.squeeze,
          StageDesc.nonprint, StageDesc.tabs]
        (freshStates [StageDesc.eol, StageDesc.numPlain, StageDesc.squeeze,
          StageDesc.nonprint, StageDesc.tabs], []) [9, 10]).2.1.2
      ≠ (chainWrite (buildOrder ⟨true, false, true, true, true, true⟩)
        (freshStates (buildOrder ⟨true, false, true, true, true, true⟩), [])
        [9, 10]).2.1.2 :=
  ⟨by decide, by decide⟩

end Allcat
